import Mathlib

set_option maxRecDepth 4000

/-!
Shallow embedding of the HTTP fetch-and-cache core of morss
(src/morss/crawler.py), together with the parts of the Python standard
library that the source calls (urllib.request.parse_http_list,
urllib.request.parse_keqv_list, cgi.parse_header, urllib.parse.urlparse,
urllib.parse.urlunparse, urllib.parse.quote, int(), str.capitalize,
str.strip, email.message.Message header access).  Python strings are
modelled as `List Char`, byte strings as `List Nat`, exceptions as
`Option`/`Except Unit`, and `time.time()` as an explicit integer
parameter.  The two external statistical/heuristic libraries the source
calls (chardet, and the nameprep/punycode core of the stdlib idna codec)
are passed in as explicit function parameters; theorems that depend on
them either quantify over the parameter or assume only its output
alphabet.
-/

abbrev Str := List Char

/-- Python str.capitalize(): first character upper-cased, the rest lower-cased
(this is how urllib.request.Request normalises header names on storage). -/
def pyCapitalize : Str → Str
  | [] => []
  | c :: rest => c.toUpper :: rest.map Char.toLower

/-- Lower-case every character (Python str.lower on the ASCII material used here). -/
def strLower (s : Str) : Str := s.map Char.toLower

/-- Lower-casing on String through the character list (kernel-reducible). -/
def sLower (s : String) : String := (strLower s.toList).asString

/-- Whitespace recognised by Python str.strip() on the ASCII range. -/
def isSpaceChar (c : Char) : Bool :=
  c = ' ' || c = '\t' || c = '\n' || c = '\r' || c = Char.ofNat 11 || c = Char.ofNat 12

/-- Python str.strip(): remove leading and trailing whitespace. -/
def pyStrip (s : Str) : Str :=
  ((s.dropWhile isSpaceChar).reverse.dropWhile isSpaceChar).reverse

/-- State machine of urllib.request.parse_http_list: split a comma-separated
header value, respecting double quotes and backslash escapes.  Arguments are
the remaining input, the escape flag, the in-quote flag and the (reversed)
current part. -/
def phlAux : Str → Bool → Bool → Str → List Str
  | [], _, _, part => if part.isEmpty then [] else [part.reverse]
  | cur :: rest, esc, q, part =>
    if esc then phlAux rest false q (cur :: part)
    else if q then
      if cur = '\\' then phlAux rest true q part
      else if cur = '"' then phlAux rest false false (cur :: part)
      else phlAux rest false true (cur :: part)
    else
      if cur = ',' then part.reverse :: phlAux rest false false []
      else if cur = '"' then phlAux rest false true (cur :: part)
      else phlAux rest false false (cur :: part)

/-- urllib.request.parse_http_list, with each part stripped as in the source. -/
def parse_http_list (s : Str) : List Str := (phlAux s false false []).map pyStrip

/-- One step of urllib.request.parse_keqv_list: split an element at the first
equals sign and strip one layer of surrounding double quotes.  Returns none
when Python would raise an IndexError (empty value, i.e. the element ends in
the equals sign). -/
def pyKeqvOne (elt : Str) : Option (Str × Str) :=
  let k := elt.takeWhile (· ≠ '=')
  let v := elt.drop (k.length + 1)
  match v with
  | [] => none
  | c :: _ =>
    some (k, if c = '"' ∧ v.getLast? = some '"' then (v.drop 1).dropLast else v)

/-- Exact-key dictionary update (Python dict assignment). -/
def dictSet (d : List (Str × Str)) (k v : Str) : List (Str × Str) :=
  if d.any (fun e => e.1 = k) then d.map (fun e => if e.1 = k then (e.1, v) else e)
  else d ++ [(k, v)]

/-- Exact-key dictionary lookup (Python dict access). -/
def dictGet (d : List (Str × Str)) (k : Str) : Option Str :=
  (d.find? (fun e => e.1 = k)).map (·.2)

/-- urllib.request.parse_keqv_list: build a dict from key=value elements;
none models the IndexError Python raises on an element with an empty value. -/
def parse_keqv_list (l : List Str) : Option (List (Str × Str)) :=
  l.foldlM (fun d elt => (pyKeqvOne elt).map (fun kv => dictSet d kv.1 kv.2)) []

/-- Numeric value of a decimal digit string, none when Python int() would reject it
(underscored literals are not modelled; header values never carry them). -/
def natOfDigits (ds : Str) : Option Nat :=
  if ds ≠ [] ∧ ds.all Char.isDigit then
    some (ds.foldl (fun a c => a * 10 + (c.toNat - 48)) 0)
  else none

/-- Python int(str): optional surrounding whitespace, optional sign, decimal digits. -/
def pyInt (s : Str) : Option Int :=
  match pyStrip s with
  | '+' :: ds => (natOfDigits ds).map Int.ofNat
  | '-' :: ds => (natOfDigits ds).map (fun n => -(n : Int))
  | ds => (natOfDigits ds).map Int.ofNat

/-- Case-insensitive first-match header lookup (email.message.Message.get,
which both the parsed cache headers and http.client response headers use). -/
def hGet (h : List (String × String)) (name : String) : Option String :=
  (h.find? (fun kv => sLower kv.1 = sLower name)).map (·.2)

/-- Case-insensitive header-name membership (email.message.Message.__contains__). -/
def hHas (h : List (String × String)) (name : String) : Bool :=
  h.any (fun kv => sLower kv.1 = sLower name)

/-- Header assignment of email.message.Message.__setitem__: it appends a new
header line, it does not replace an existing one. -/
def hSet (h : List (String × String)) (name val : String) : List (String × String) :=
  h ++ [(name, val)]

/-- Truthiness of the loaded status code (Python `if cache[0]:`). -/
def pyTruthy : Option Int → Bool
  | none => false
  | some n => n ≠ 0

/-- Model of urllib.request.Request: url, ordinary headers and unredirected
headers.  urllib stores every header key capitalize()d. -/
structure PyRequest where
  url : String
  headers : List (String × String)
  unredirected : List (String × String)
deriving Repr, DecidableEq

/-- Exact-key dictionary update on String pairs (Python dict assignment, as in
Request.add_header / add_unredirected_header). -/
def sdictSet (d : List (String × String)) (k v : String) : List (String × String) :=
  if d.any (fun e => e.1 = k) then d.map (fun e => if e.1 = k then (e.1, v) else e)
  else d ++ [(k, v)]

/-- Exact-key dictionary lookup on String pairs. -/
def sdictGet (d : List (String × String)) (k : String) : Option String :=
  (d.find? (fun e => e.1 = k)).map (·.2)

/-- Python str.capitalize lifted to String (header-key normalisation of urllib). -/
def capName (s : String) : String := (pyCapitalize s.toList).asString

/-- Request.add_unredirected_header: store under the capitalize()d key. -/
def addUnredirected (r : PyRequest) (k v : String) : PyRequest :=
  { r with unredirected := sdictSet r.unredirected (capName k) v }

/-- Request.get_header: ordinary headers first, then unredirected headers. -/
def getHeader (r : PyRequest) (name : String) : Option String :=
  match sdictGet r.headers name with
  | some v => some v
  | none => sdictGet r.unredirected name

/-- Request construction with a headers dict: urllib re-adds each pair through
add_header, which capitalize()s the key (dict semantics, replace on clash). -/
def buildHeaders (hs : List (String × String)) : List (String × String) :=
  hs.foldl (fun d kv => sdictSet d (capName kv.1) kv.2) []

/-- Model of the responses flowing through the handler chain (urllib addinfourl):
a byte body, headers, the request url, an optional status code and an optional
status message.  The code and message are optional because the cache handler
can synthesise a response from an absent record, whose stored code/msg are None. -/
structure PyResponse where
  body : List Nat
  headers : List (String × String)
  url : String
  code : Option Int
  msg : Option String
deriving Repr, DecidableEq

/-- CacheRecord: the five-field tuple (code, msg, serialised headers, body bytes,
timestamp) stored per URL.  The RFC-822 round trip through unicode(headers) /
email.message_from_string is modelled as the identity on the header list. -/
structure CacheRecord where
  code : Option Int
  msg : Option String
  headers : List (String × String)
  data : List Nat
  timestamp : Int
deriving Repr, DecidableEq

/-- The cache backend, keyed by URL (CappedDict / SQLite / MySQL all behave as
a url-keyed dict for the handler). -/
abbrev Cache := List (String × CacheRecord)

def cacheGet (c : Cache) (u : String) : Option CacheRecord :=
  (c.find? (fun e => e.1 = u)).map (·.2)

/-- Upsert, as CappedDict.__setitem__ does (delete existing key, then append). -/
def cacheSet (c : Cache) (u : String) (r : CacheRecord) : Cache :=
  (c.filter (fun e => ¬ e.1 = u)) ++ [(u, r)]

/-- CacheHandler.load: the stored record for the url, or the
(None, None, empty headers, empty body, 0) default on a cache miss. -/
def chLoad (c : Cache) (u : String) : CacheRecord :=
  (cacheGet c u).getD ⟨none, none, [], [], 0⟩

/-- CacheHandler.save: upsert the record under the url. -/
def chSave (c : Cache) (u : String) (code : Option Int) (msg : Option String)
    (headers : List (String × String)) (data : List Nat) (ts : Int) : Cache :=
  cacheSet c u ⟨code, msg, headers, data, ts⟩

/-- Cache-Control/Pragma tokens of a header block, as CacheHandler computes them:
parse_http_list of the cache-control value plus parse_http_list of the pragma
value (absent headers contribute nothing). -/
def ccTokens (h : List (String × String)) : List Str :=
  parse_http_list ((hGet h "cache-control").getD "").toList ++
    parse_http_list ((hGet h "pragma").getD "").toList

/-- Directive tokens (no equals sign), cc_list in the source. -/
def ccList (h : List (String × String)) : List Str :=
  (ccTokens h).filter (fun x => ¬ '=' ∈ x)

/-- Key=value directives fed to parse_keqv_list, cc_values in the source
(none models the IndexError parse_keqv_list can raise). -/
def ccValues (h : List (String × String)) : Option (List (Str × Str)) :=
  parse_keqv_list ((ccTokens h).filter (fun x => '=' ∈ x))

/-- Condition under which the eager cc_values computation in http_open does not
raise: every key=value directive in the stored headers has a nonempty value. -/
def KeqvOk (h : List (String × String)) : Prop := (ccValues h).isSome

instance (h : List (String × String)) : Decidable (KeqvOk h) := by
  unfold KeqvOk; infer_instance

/-- The freshness-directive test shared by http_open and http_response:
no-cache, no-store, or private while the cache is not an end-user cache. -/
def ccSaysRefresh (h : List (String × String)) (priv : Bool) : Bool :=
  "no-cache".toList ∈ ccList h ∨ "no-store".toList ∈ ccList h ∨
    ("private".toList ∈ ccList h ∧ ¬ priv)

/-- CacheHandler.http_request: add If-None-Match / If-Modified-Since validators
from the stored record (both as unredirected headers). -/
def chHttpRequest (c : Cache) (req : PyRequest) : PyRequest :=
  let r := chLoad c req.url
  let req := if hHas r.headers "etag" then
      addUnredirected req "If-None-Match" ((hGet r.headers "etag").getD "")
    else req
  if hHas r.headers "last-modified" then
    addUnredirected req "If-Modified-Since" ((hGet r.headers "last-modified").getD "")
  else req

/-- CacheHandler.http_open, the short-circuit decision tree (source lines
468-545).  `Except.error` models a Python exception escaping the handler
(parse_keqv_list on a valueless directive, or int() on a bad max-age);
`ok none` means fall through to the network; `ok (some resp)` short-circuits
with a synthesised response. -/
def chHttpOpen (force_min : Option Int) (priv : Bool) (c : Cache) (req : PyRequest)
    (now : Int) : Except Unit (Option PyResponse) :=
  let r := chLoad c req.url
  match ccValues r.headers with
  | none => Except.error ()
  | some cc_values =>
    let cc_list := ccList r.headers
    let cache_age : Int := now - r.timestamp
    let useCache : Option PyResponse :=
      some ⟨r.data, hSet r.headers "morss" "from_cache", req.url, r.code, r.msg⟩
    let tail9 : Option PyResponse :=
      match force_min with
      | some m => if m > cache_age then useCache else none
      | none => none
    if getHeader req "Morss" = some "from_304" then Except.ok useCache
    else if force_min = some (-2) then
      if ¬ r.code = none then Except.ok useCache
      else Except.ok (some ⟨[], hSet r.headers "Morss" "from_cache", req.url, some 409,
        some "Conflict"⟩)
    else if r.code = none then Except.ok none
    else if force_min = some (-1) then Except.ok useCache
    else if force_min = some 0 then Except.ok none
    else if r.code = some 301 ∧ cache_age < 7 * 24 * 3600 then Except.ok useCache
    else if force_min = none ∧ ("no-cache".toList ∈ cc_list ∨ "no-store".toList ∈ cc_list ∨
        ("private".toList ∈ cc_list ∧ ¬ priv)) then Except.ok none
    else
      match dictGet cc_values "max-age".toList with
      | some v =>
        match pyInt v with
        | none => Except.error ()
        | some n => if n > cache_age then Except.ok useCache else Except.ok tail9
      | none => Except.ok tail9

/-- CacheHandler.http_response (source lines 547-578): pass 304s through, honour
freshness directives when force_min is None, skip re-saving cache-synthesised
responses, otherwise upsert the record with the current time.  Returns the
response handed on together with the new cache state. -/
def chHttpResponse (force_min : Option Int) (priv : Bool) (c : Cache) (url : String)
    (resp : PyResponse) (now : Int) : PyResponse × Cache :=
  if resp.code = some 304 then (resp, c)
  else if (hHas resp.headers "cache-control" ∨ hHas resp.headers "pragma") ∧
      force_min = none ∧ ccSaysRefresh resp.headers priv then (resp, c)
  else if hGet resp.headers "Morss" = some "from_cache" then (resp, c)
  else (⟨resp.body, resp.headers, resp.url, resp.code, resp.msg⟩,
    chSave c url resp.code resp.msg resp.headers resp.body now)

/-- One pass of the opener restricted to the cache handler's hooks: request hook,
open hook, and on a synthesised response the response hook.  `ok none` means the
network would be consulted (out of model); the cache state is returned alongside. -/
def chOpen (force_min : Option Int) (priv : Bool) (c : Cache) (req : PyRequest)
    (now : Int) : Except Unit (Option PyResponse) × Cache :=
  let req2 := chHttpRequest c req
  match chHttpOpen force_min priv c req2 now with
  | Except.error e => (Except.error e, c)
  | Except.ok none => (Except.ok none, c)
  | Except.ok (some r) =>
    let rc := chHttpResponse force_min priv c req2.url r now
    (Except.ok (some rc.1), rc.2)

/-- CacheHandler.http_error_304 (source lines 580-599): if a record with a truthy
code is cached, bump its timestamp, save, and replay the pipeline with a fresh
request marked Morss: from_304; otherwise return None so the next handler runs. -/
def chHttpError304 (force_min : Option Int) (priv : Bool) (c : Cache) (req : PyRequest)
    (now : Int) : Except Unit (Option PyResponse) × Cache :=
  let r := chLoad c req.url
  if pyTruthy r.code then
    let c1 := chSave c req.url r.code r.msg r.headers r.data now
    let newReq : PyRequest :=
      addUnredirected ⟨req.url, buildHeaders req.headers, []⟩ "Morss" "from_304"
    chOpen force_min priv c1 newReq now
  else (Except.ok none, c)

/-- Default limit argument of SizeLimitHandler.__init__.  The source writes
`5*1024^2`; in Python `^` is bitwise XOR, so the value is (5*1024) xor 2. -/
def sizeLimitDefault : Nat := Nat.xor (5 * 1024) 2

/-- SizeLimitHandler.http_response: read at most `limit` bytes of the body
(resp.read(self.limit)) and rewrap the response around the truncated buffer. -/
def sizeLimitHttpResponse (limit : Nat) (resp : PyResponse) : PyResponse :=
  { resp with body := resp.body.take limit }

/-- Count of a single character in a prefix (Python s.count(c, 0, end)). -/
def countChar (c : Char) (s : Str) : Nat := (s.filter (· = c)).length

/-- Non-overlapping count of the two-character sequence backslash-quote
(Python s.count of an escaped quote). -/
def countEscQuote : Str → Nat
  | a :: b :: rest =>
    if a = '\\' ∧ b = '"' then 1 + countEscQuote rest else countEscQuote (b :: rest)
  | _ => 0

/-- Indices at which a character occurs. -/
def charIdxs (c : Char) (s : Str) : List Nat :=
  (List.range s.length).filter (fun i => s.get? i = some c)

/-- Quote parity test of cgi._parseparam: the count of double quotes minus the
count of escaped quotes before the candidate semicolon must be even. -/
def quoteDiffEven (s : Str) (e : Nat) : Bool :=
  (countChar '"' (s.take e) - countEscQuote (s.take e)) % 2 = 0

/-- Final value of `end` in one round of cgi._parseparam: the first semicolon
lying outside quotes (walking further on odd parity), the length if none. -/
def chooseEnd (s : Str) : Nat :=
  match charIdxs ';' s with
  | [] => s.length
  | i0 :: _ =>
    if i0 = 0 then 0
    else
      match (charIdxs ';' s).find? (fun j => quoteDiffEven s j) with
      | some j => j
      | none => s.length

/-- The generator cgi._parseparam, driven with enough fuel (each round consumes
at least the leading semicolon, so length+1 rounds always finish the string). -/
def parseparamAux : Nat → Str → List Str
  | 0, _ => []
  | fuel + 1, s =>
    match s with
    | ';' :: s1 =>
      let e := chooseEnd s1
      pyStrip (s1.take e) :: parseparamAux fuel (s1.drop e)
    | _ => []

/-- Replace the two-character sequence [a, b] by the single character c,
left to right and non-overlapping (Python str.replace on a 2-char pattern). -/
def replacePair (a b c : Char) : Str → Str
  | x :: y :: rest =>
    if x = a ∧ y = b then c :: replacePair a b c rest
    else x :: replacePair a b c (y :: rest)
  | s => s

/-- Unescaping cgi.parse_header applies inside a double-quoted parameter value:
first collapse doubled backslashes, then unescape quotes. -/
def pyUnescape (v : Str) : Str := replacePair '\\' '"' '"' (replacePair '\\' '\\' '\\' v)

/-- cgi.parse_header: split a Content-Type-style header into the main value and
a dict of lower-cased parameter names to (possibly unquoted) values. -/
def parse_header (line : Str) : Str × List (Str × Str) :=
  match parseparamAux (line.length + 1) (';' :: line) with
  | [] => ([], [])
  | key :: parts =>
    (key, parts.foldl (fun d p =>
      let i := p.takeWhile (· ≠ '=')
      if i.length < p.length then
        let name := strLower (pyStrip i)
        let value0 := pyStrip (p.drop (i.length + 1))
        let value :=
          if 2 ≤ value0.length ∧ value0.head? = some '"' ∧ value0.getLast? = some '"' then
            pyUnescape ((value0.drop 1).dropLast)
          else value0
        dictSet d name value
      else d) [])

/-- Lower-case an ASCII byte (bytes.lower on the matched charset label). -/
def byteLower (b : Nat) : Nat := if 65 ≤ b ∧ b ≤ 90 then b + 32 else b

/-- The regex character class [0-9a-zA-Z-] on bytes. -/
def charClassByte (b : Nat) : Bool :=
  (48 ≤ b ∧ b ≤ 57) || (65 ≤ b ∧ b ≤ 90) || (97 ≤ b ∧ b ≤ 122) || b = 45

/-- Try the pattern `lit ["\x27]? ([0-9a-zA-Z-]+)` at the head of data, returning
the captured group.  The optional quote cannot backtrack into the class, so a
quote followed by no class character fails at this position. -/
def matchLabelAt (lit : List Nat) (data : List Nat) : Option (List Nat) :=
  if data.take lit.length = lit then
    let rest := data.drop lit.length
    match rest with
    | [] => none
    | b :: t =>
      if b = 34 ∨ b = 39 then
        (let run := t.takeWhile charClassByte
         if run.isEmpty then none else some run)
      else
        (let run := rest.takeWhile charClassByte
         if run.isEmpty then none else some run)
  else none

/-- re.search: leftmost position at which the pattern matches. -/
def reSearch (lit : List Nat) : List Nat → Option (List Nat)
  | [] => none
  | b :: rest => (matchLabelAt lit (b :: rest)).orElse (fun _ => reSearch lit rest)

/-- Byte literal charset= of the source regex. -/
def patCharset : List Nat := [99, 104, 97, 114, 115, 101, 116, 61]

/-- Byte literal encoding= of the source regex. -/
def patEncoding : List Nat := [101, 110, 99, 111, 100, 105, 110, 103, 61]

/-- Decode the matched label: bytes.lower() then .decode() (the class is ASCII). -/
def labelDecode (run : List Nat) : String :=
  ((run.map byteLower).map Char.ofNat).asString

/-- Body-based part of detect_raw_encoding: meta charset=, XML encoding=, then
chardet on the last 2000 bytes (accepted only when truthy and not ascii),
finally the utf-8 default.  chardet is the external statistical detector,
passed as a function; none models an unconfident result (encoding None). -/
def detect_raw_encoding_body (chardet : List Nat → Option String) (data : List Nat) : String :=
  match reSearch patCharset (data.take 1000) with
  | some run => labelDecode run
  | none =>
    match reSearch patEncoding (data.take 1000) with
    | some run => labelDecode run
    | none =>
      match chardet (data.drop (data.length - 2000)) with
      | some e => if e ≠ "" ∧ e ≠ "ascii" then e else "utf-8"
      | none => "utf-8"

/-- detect_raw_encoding (source lines 254-276): charset response header, charset
parameter of Content-Type, then the body waterfall. -/
def detect_raw_encoding (chardet : List Nat → Option String) (data : List Nat)
    (resp : Option (List (String × String))) : String :=
  match resp with
  | some hdrs =>
    match hGet hdrs "charset" with
    | some enc => enc
    | none =>
      match dictGet (parse_header ((hGet hdrs "content-type").getD "").toList).2
          "charset".toList with
      | some enc => enc.asString
      | none => detect_raw_encoding_body chardet data
  | none => detect_raw_encoding_body chardet data

/-- detect_encoding (source lines 245-251): the raw waterfall with the gb2312
label rewritten to gbk. -/
def detect_encoding (chardet : List Nat → Option String) (data : List Nat)
    (resp : Option (List (String × String))) : String :=
  let enc := detect_raw_encoding chardet data resp
  if sLower enc = "gb2312" then "gbk" else enc

/-- Waterfall step 1, stated from the spec: the charset response header. -/
def wfStep1 (resp : Option (List (String × String))) : Option String :=
  resp.bind (fun h => hGet h "charset")

/-- Waterfall step 2, stated from the spec: the charset parameter of Content-Type. -/
def wfStep2 (resp : Option (List (String × String))) : Option String :=
  resp.bind (fun h =>
    (dictGet (parse_header ((hGet h "content-type").getD "").toList).2
      "charset".toList).map List.asString)

/-- Waterfall step 3, stated from the spec: the charset= byte pattern in the
first 1000 body bytes. -/
def wfStep3 (data : List Nat) : Option String :=
  (reSearch patCharset (data.take 1000)).map labelDecode

/-- Waterfall step 4, stated from the spec: the encoding= byte pattern in the
first 1000 body bytes. -/
def wfStep4 (data : List Nat) : Option String :=
  (reSearch patEncoding (data.take 1000)).map labelDecode

/-- Waterfall step 5, stated from the spec: statistical detection on the last
2000 bytes, accepted only when confident and not ascii. -/
def wfStep5 (chardet : List Nat → Option String) (data : List Nat) : Option String :=
  (chardet (data.drop (data.length - 2000))).bind
    (fun e => if e ≠ "" ∧ e ≠ "ascii" then some e else none)

/-- C9 counterexample: a SizeLimitHandler constructed with no argument caps the
body at 5122 bytes, not 5114 as the claim states ((5*1024) xor 2 = 5122). -/
theorem C9_counterexample :
    (sizeLimitHttpResponse sizeLimitDefault
        ⟨List.replicate 6000 0, [], "http://x", some 200, some "OK"⟩).body.length = 5122 ∧
      (5122 : Nat) ≠ 5114 := by
  refine ⟨?_, by decide⟩
  show ((List.replicate 6000 0).take sizeLimitDefault).length = 5122
  rw [List.length_take, List.length_replicate]
  decide

/-- C9 amended: the default constructor argument 5*1024^2 is XOR, not a power,
and the effective cap of a no-argument SizeLimitHandler is exactly 5122 bytes:
the body kept is the first min 5122 (length body) bytes. -/
theorem C9_default_cap :
    sizeLimitDefault = 5122 ∧
      ∀ resp : PyResponse,
        (sizeLimitHttpResponse sizeLimitDefault resp).body.length = min 5122 resp.body.length := by
  refine ⟨by decide, fun resp => ?_⟩
  show (resp.body.take sizeLimitDefault).length = min 5122 resp.body.length
  rw [List.length_take, show sizeLimitDefault = 5122 from by decide]

/-- C6: detect_encoding rewrites a raw label that lower-cases to gb2312 into gbk
and returns every other raw label unchanged. -/
theorem C6_gb2312_rewrite (chardet : List Nat → Option String) (data : List Nat)
    (resp : Option (List (String × String))) :
    detect_encoding chardet data resp =
      (if sLower (detect_raw_encoding chardet data resp) = "gb2312" then "gbk"
       else detect_raw_encoding chardet data resp) := rfl

/-- Combinator stated from the spec: the first defined step result wins,
otherwise the default. -/
def firstHit (steps : List (Option String)) (dflt : String) : String :=
  match steps.filterMap id with
  | [] => dflt
  | e :: _ => e

theorem firstHit_none (rest : List (Option String)) (d : String) :
    firstHit (none :: rest) d = firstHit rest d := by
  simp [firstHit, List.filterMap_cons]

theorem firstHit_some (e : String) (rest : List (Option String)) (d : String) :
    firstHit (some e :: rest) d = e := by
  simp [firstHit, List.filterMap_cons]

theorem detect_body_eq_firstHit (chardet : List Nat → Option String) (data : List Nat) :
    detect_raw_encoding_body chardet data =
      firstHit [wfStep3 data, wfStep4 data, wfStep5 chardet data] "utf-8" := by
  unfold detect_raw_encoding_body wfStep3 wfStep4 wfStep5
  cases h3 : reSearch patCharset (data.take 1000) with
  | some run => simp [h3, firstHit_some]
  | none =>
    cases h4 : reSearch patEncoding (data.take 1000) with
    | some run => simp [h3, h4, firstHit_none, firstHit_some]
    | none =>
      cases h5 : chardet (data.drop (data.length - 2000)) with
      | some e =>
        by_cases he : e ≠ "" ∧ e ≠ "ascii"
        · simp [h3, h4, h5, he, firstHit_none, firstHit_some]
        · simp [h3, h4, h5, he, firstHit_none, firstHit]
      | none => simp [h3, h4, h5, firstHit_none, firstHit]

/-- C5: detect_raw_encoding applies the waterfall in exactly the spec's order,
first hit winning: charset header, Content-Type charset parameter, charset=
byte pattern in the first 1000 bytes, encoding= byte pattern in the first 1000
bytes, statistical detection on the last 2000 bytes (confident and not ascii),
then the utf-8 default. -/
theorem C5_waterfall_order (chardet : List Nat → Option String) (data : List Nat)
    (resp : Option (List (String × String))) :
    detect_raw_encoding chardet data resp =
      firstHit [wfStep1 resp, wfStep2 resp, wfStep3 data, wfStep4 data,
        wfStep5 chardet data] "utf-8" := by
  cases resp with
  | none =>
    simp only [detect_raw_encoding, wfStep1, wfStep2, Option.none_bind, firstHit_none]
    exact detect_body_eq_firstHit chardet data
  | some hdrs =>
    simp only [detect_raw_encoding, wfStep1, wfStep2, Option.some_bind]
    cases h1 : hGet hdrs "charset" with
    | some enc => rw [firstHit_some]
    | none =>
      rw [firstHit_none]
      cases h2 : dictGet (parse_header ((hGet hdrs "content-type").getD "").toList).2
          "charset".toList with
      | some enc => rw [Option.map_some', firstHit_some]
      | none =>
        rw [Option.map_none', firstHit_none]
        exact detect_body_eq_firstHit chardet data

theorem cacheFilter_find?_none (c : Cache) (u : String) :
    (c.filter (fun e => ¬ e.1 = u)).find? (fun e => e.1 = u) = none := by
  induction c with
  | nil => rfl
  | cons a t ih =>
    by_cases ha : a.1 = u
    · simp only [List.filter, ha]
      simp [ih]
    · simp only [List.filter, ha]
      simp [List.find?, ha, ih]

theorem cacheGet_set_self (c : Cache) (u : String) (r : CacheRecord) :
    cacheGet (cacheSet c u r) u = some r := by
  unfold cacheGet cacheSet
  rw [List.find?_append, cacheFilter_find?_none c u, Option.none_or]
  simp [List.find?]

theorem hGet_some_hHas (h : List (String × String)) (n v : String)
    (hg : hGet h n = some v) : hHas h n = true := by
  unfold hGet at hg
  cases hf : h.find? (fun kv => sLower kv.1 = sLower n) with
  | none => rw [hf] at hg; simp at hg
  | some kv =>
    have hm := List.mem_of_find?_eq_some hf
    have hp := List.find?_some hf
    exact List.any_eq_true.mpr ⟨kv, hm, hp⟩

theorem hGet_append_last (l : List (String × String)) (k v n : String)
    (h : ∀ kv ∈ l, ¬ sLower kv.1 = sLower n) (hk : sLower k = sLower n) :
    hGet (l ++ [(k, v)]) n = some v := by
  unfold hGet
  have hnone : l.find? (fun kv => sLower kv.1 = sLower n) = none := by
    induction l with
    | nil => rfl
    | cons a t ih =>
      have ha := h a (List.mem_cons_self a t)
      rw [List.find?_cons_of_neg _ (by simp [ha])]
      exact ih (fun kv hm => h kv (List.mem_cons_of_mem _ hm))
  rw [List.find?_append, hnone, Option.none_or]
  simp [List.find?, hk]

theorem find?_keymap (t : List (String × String)) (j v k : String) (h : ¬ j = k) :
    (((t.map (fun e => if e.1 = j then (e.1, v) else e)).find?
        (fun e => e.1 = k)).map (fun x => x.2)) =
      ((t.find? (fun e => e.1 = k)).map (fun x => x.2)) := by
  induction t with
  | nil => rfl
  | cons a t ih =>
    simp only [List.map_cons]
    by_cases haj : a.1 = j
    · have hak : ¬ a.1 = k := fun hh => h (haj ▸ hh)
      rw [List.find?_cons_of_neg _ (by simp [haj, hak, h, Ne.symm h]),
        List.find?_cons_of_neg _ (by simp [hak])]
      exact ih
    · by_cases hak : a.1 = k
      · rw [List.find?_cons_of_pos _ (by simp [haj, hak, Ne.symm h]),
          List.find?_cons_of_pos _ (by simp [hak])]
        simp [haj]
      · rw [List.find?_cons_of_neg _ (by simp [haj, hak]),
          List.find?_cons_of_neg _ (by simp [hak])]
        exact ih

theorem sdictGet_sdictSet_ne (d : List (String × String)) (j v k : String)
    (h : ¬ j = k) : sdictGet (sdictSet d j v) k = sdictGet d k := by
  unfold sdictGet sdictSet
  cases hd : d.any (fun e => e.1 = j) with
  | true =>
    rw [if_pos rfl]
    exact find?_keymap d j v k h
  | false =>
    rw [if_neg (by simp)]
    rw [List.find?_append]
    cases hf : d.find? (fun e => e.1 = k) with
    | some a => simp
    | none =>
      rw [List.find?_cons_of_neg _ (by simp; exact h)]
      simp [List.find?]

theorem sdictGet_foldl_none : ∀ (hs : List (String × String)) (k : String)
    (acc : List (String × String)),
    (∀ kv ∈ hs, ¬ capName kv.1 = k) → sdictGet acc k = none →
    sdictGet (hs.foldl (fun d kv => sdictSet d (capName kv.1) kv.2) acc) k = none
  | [], _, _, _, hacc => hacc
  | a :: t, k, acc, h, hacc => by
    simp only [List.foldl_cons]
    exact sdictGet_foldl_none t k _ (fun kv hm => h kv (List.mem_cons_of_mem _ hm))
      (by rw [sdictGet_sdictSet_ne _ _ _ _ (h a (List.mem_cons_self a t))]; exact hacc)

theorem sdictGet_buildHeaders_none (hs : List (String × String)) (k : String)
    (h : ∀ kv ∈ hs, ¬ capName kv.1 = k) : sdictGet (buildHeaders hs) k = none :=
  sdictGet_foldl_none hs k [] h rfl

theorem ccList_mem_has (hdrs : List (String × String)) (x : Str)
    (hx : x ∈ ccList hdrs) :
    hHas hdrs "cache-control" = true ∨ hHas hdrs "pragma" = true := by
  unfold ccList ccTokens at hx
  have hx' := (List.mem_filter.mp hx).1
  rcases List.mem_append.mp hx' with hmem | hmem
  · cases hg : hGet hdrs "cache-control" with
    | none =>
      rw [hg] at hmem
      have hz : parse_http_list ((none : Option String).getD "").toList = [] := rfl
      rw [hz] at hmem
      exact absurd hmem (List.not_mem_nil x)
    | some v => exact Or.inl (hGet_some_hHas _ _ _ hg)
  · cases hg : hGet hdrs "pragma" with
    | none =>
      rw [hg] at hmem
      have hz : parse_http_list ((none : Option String).getD "").toList = [] := rfl
      rw [hz] at hmem
      exact absurd hmem (List.not_mem_nil x)
    | some v => exact Or.inr (hGet_some_hHas _ _ _ hg)

/-- C2: with force_min = -2 and no from_304 marker on the request (the marker
rule precedes this one, and no 304 can arise under -2 because the network is
never consulted), http_open always short-circuits: a present record is served
from cache, an absent record yields a synthetic 409 Conflict carrying
Morss: from_cache and an empty body.  The KeqvOk hypothesis says the stored
cache-control directives do not make the eager parse_keqv_list call raise. -/
theorem C2_force_min_neg2 (priv : Bool) (c : Cache) (req : PyRequest) (now : Int)
    (hm : ¬ getHeader req "Morss" = some "from_304")
    (hk : KeqvOk (chLoad c req.url).headers) :
    (∀ cd : Int, (chLoad c req.url).code = some cd →
      chHttpOpen (some (-2)) priv c req now =
        Except.ok (some ⟨(chLoad c req.url).data,
          hSet (chLoad c req.url).headers "morss" "from_cache",
          req.url, some cd, (chLoad c req.url).msg⟩)) ∧
    ((chLoad c req.url).code = none →
      chHttpOpen (some (-2)) priv c req now =
        Except.ok (some ⟨[], hSet (chLoad c req.url).headers "Morss" "from_cache",
          req.url, some 409, some "Conflict"⟩)) := by
  unfold KeqvOk at hk
  obtain ⟨d, hd⟩ := Option.isSome_iff_exists.mp hk
  constructor
  · intro cd hcd
    simp [chHttpOpen, hd, hcd, hm]
  · intro hcd
    simp [chHttpOpen, hd, hcd, hm]

/-- C2 witness: concrete cache miss (409 with Morss: from_cache, empty body)
and concrete cache hit (stored record served). -/
theorem C2_witness :
    chHttpOpen (some (-2)) false [] ⟨"http://u", [], []⟩ 100 =
      Except.ok (some ⟨[], [("Morss", "from_cache")], "http://u", some 409,
        some "Conflict"⟩) ∧
    chHttpOpen (some (-2)) false
        [("http://u", ⟨some 200, some "OK", [("ETag", "x")], [104, 105], 50⟩)]
        ⟨"http://u", [], []⟩ 100 =
      Except.ok (some ⟨[104, 105], [("ETag", "x"), ("morss", "from_cache")], "http://u",
        some 200, some "OK"⟩) := by
  constructor
  · exact (C2_force_min_neg2 false [] ⟨"http://u", [], []⟩ 100 (by decide) (by decide)).2 rfl
  · exact (C2_force_min_neg2 false
      [("http://u", ⟨some 200, some "OK", [("ETag", "x")], [104, 105], 50⟩)]
      ⟨"http://u", [], []⟩ 100 (by decide) (by decide)).1 200 rfl

/-- C3: when force_min is None and the response's Cache-Control or Pragma value
contains the no-store token (or no-cache, or private without an end-user cache),
http_response stores nothing: the cache is returned unchanged and the response
passes through untouched. -/
theorem C3_no_store_not_saved (priv : Bool) (c : Cache) (url : String)
    (resp : PyResponse) (now : Int)
    (h : "no-store".toList ∈ ccList resp.headers ∨
      "no-cache".toList ∈ ccList resp.headers ∨
      ("private".toList ∈ ccList resp.headers ∧ priv = false)) :
    chHttpResponse none priv c url resp now = (resp, c) := by
  by_cases h304 : resp.code = some 304
  · simp [chHttpResponse, h304]
  · have hcc : ccSaysRefresh resp.headers priv = true := by
      unfold ccSaysRefresh
      rcases h with h | h | ⟨h, hp⟩
      · exact decide_eq_true (Or.inr (Or.inl h))
      · exact decide_eq_true (Or.inl h)
      · exact decide_eq_true (Or.inr (Or.inr ⟨h, by simp [hp]⟩))
    have hhas : hHas resp.headers "cache-control" = true ∨
        hHas resp.headers "pragma" = true := by
      rcases h with h | h | ⟨h, _⟩ <;> exact ccList_mem_has _ _ h
    unfold chHttpResponse
    rw [if_neg h304, if_pos ⟨hhas, rfl, hcc⟩]

/-- C3 witness: a concrete 200 response with Cache-Control: no-store is passed
through with the cache left empty. -/
theorem C3_witness :
    chHttpResponse none false [] "http://u"
        ⟨[1], [("Cache-Control", "no-store")], "http://u", some 200, some "OK"⟩ 7 =
      (⟨[1], [("Cache-Control", "no-store")], "http://u", some 200, some "OK"⟩, []) :=
  C3_no_store_not_saved false [] "http://u" _ 7 (Or.inl (by decide))

/-- C10: a 304 arriving while the loaded record's code is None makes
http_error_304 return None with the cache untouched: no save, no replay,
delegation to the next handler. -/
theorem C10_304_without_record (fm : Option Int) (priv : Bool) (c : Cache)
    (req : PyRequest) (now : Int) (h : (chLoad c req.url).code = none) :
    chHttpError304 fm priv c req now = (Except.ok none, c) := by
  simp [chHttpError304, h, pyTruthy]

/-- C10 witness: concrete empty cache. -/
theorem C10_witness :
    chHttpError304 none false [] ⟨"http://u", [], []⟩ 3 = (Except.ok none, []) :=
  C10_304_without_record none false [] ⟨"http://u", [], []⟩ 3 rfl

theorem chHttpRequest_fields (c : Cache) (q : PyRequest) :
    (chHttpRequest c q).url = q.url ∧ (chHttpRequest c q).headers = q.headers ∧
      sdictGet (chHttpRequest c q).unredirected "Morss" =
        sdictGet q.unredirected "Morss" := by
  have e1 : ¬ capName "If-None-Match" = "Morss" := by decide
  have e2 : ¬ capName "If-Modified-Since" = "Morss" := by decide
  simp only [chHttpRequest]
  split
  · split
    · exact ⟨rfl, rfl,
        (sdictGet_sdictSet_ne _ _ _ _ e2).trans (sdictGet_sdictSet_ne _ _ _ _ e1)⟩
    · exact ⟨rfl, rfl, sdictGet_sdictSet_ne _ _ _ _ e2⟩
  · split
    · exact ⟨rfl, rfl, sdictGet_sdictSet_ne _ _ _ _ e1⟩
    · exact ⟨rfl, rfl, rfl⟩

theorem chOpen_from_304 (fm : Option Int) (priv : Bool) (c1 : Cache) (q : PyRequest)
    (now : Int) (rec1 : CacheRecord) (cd : Int)
    (hload : chLoad c1 q.url = rec1)
    (hcd : rec1.code = some cd)
    (hqh : sdictGet q.headers "Morss" = none)
    (hqu : sdictGet q.unredirected "Morss" = some "from_304")
    (hnm : ∀ kv ∈ rec1.headers, ¬ sLower kv.1 = "morss")
    (hk : KeqvOk rec1.headers) :
    chOpen fm priv c1 q now =
      (Except.ok (some ⟨rec1.data, hSet rec1.headers "morss" "from_cache", q.url,
        some cd, rec1.msg⟩), c1) := by
  obtain ⟨hu2, hh2, hm2⟩ := chHttpRequest_fields c1 q
  have hgh : getHeader (chHttpRequest c1 q) "Morss" = some "from_304" := by
    unfold getHeader
    rw [hh2, hqh, hm2, hqu]
  unfold KeqvOk at hk
  obtain ⟨d, hd⟩ := Option.isSome_iff_exists.mp hk
  have hload2 : chLoad c1 (chHttpRequest c1 q).url = rec1 := by rw [hu2]; exact hload
  have hopen : chHttpOpen fm priv c1 (chHttpRequest c1 q) now =
      Except.ok (some ⟨rec1.data, hSet rec1.headers "morss" "from_cache", q.url,
        some cd, rec1.msg⟩) := by
    simp only [chHttpOpen, hload2, hd, hgh]
    simp [hcd, hu2]
  have hresp : chHttpResponse fm priv c1 (chHttpRequest c1 q).url
      ⟨rec1.data, hSet rec1.headers "morss" "from_cache", q.url, some cd, rec1.msg⟩ now =
      (⟨rec1.data, hSet rec1.headers "morss" "from_cache", q.url, some cd, rec1.msg⟩, c1) := by
    simp only [chHttpResponse]
    by_cases h304 : (some cd : Option Int) = some 304
    · rw [if_pos h304]
    · rw [if_neg h304]
      by_cases hC : ((hHas (hSet rec1.headers "morss" "from_cache") "cache-control" ∨
          hHas (hSet rec1.headers "morss" "from_cache") "pragma") ∧ fm = none ∧
          ccSaysRefresh (hSet rec1.headers "morss" "from_cache") priv)
      · rw [if_pos hC]
      · rw [if_neg hC]
        have hmc : hGet (hSet rec1.headers "morss" "from_cache") "Morss" =
            some "from_cache" :=
          hGet_append_last _ _ _ _
            (fun kv hkv => by
              rw [show sLower "Morss" = "morss" from rfl]
              exact hnm kv hkv)
            (by decide)
        rw [if_pos hmc]
  simp only [chOpen, hopen, hresp]

/-- C1: on a 304 with a cached record present (truthy stored code), the caller
never sees the 304: http_error_304 bumps the record's timestamp and saves it,
re-issues a request marked Morss: from_304, the open hook's first rule serves
the cached body, and the response hook passes it through — so the caller
receives the previously stored body with the stored (200) status.  The side
hypotheses say the original request carries no caller-supplied Morss header,
the stored headers carry no Morss header of their own (the handler never
stores one), and the stored cache-control directives parse without raising. -/
theorem C1_304_replays_cache (fm : Option Int) (priv : Bool) (c : Cache)
    (req : PyRequest) (now : Int) (rec : CacheRecord) (cd : Int)
    (hrec : cacheGet c req.url = some rec) (hcd : rec.code = some cd) (h0 : ¬ cd = 0)
    (hm : ∀ kv ∈ req.headers, ¬ capName kv.1 = "Morss")
    (hnm : ∀ kv ∈ rec.headers, ¬ sLower kv.1 = "morss")
    (hk : KeqvOk rec.headers) :
    chHttpError304 fm priv c req now =
      (Except.ok (some ⟨rec.data, hSet rec.headers "morss" "from_cache", req.url,
        some cd, rec.msg⟩),
       cacheSet c req.url ⟨some cd, rec.msg, rec.headers, rec.data, now⟩) := by
  have hload : chLoad c req.url = rec := by
    unfold chLoad
    rw [hrec]
    rfl
  have htr : pyTruthy rec.code = true := by
    rw [hcd]
    exact decide_eq_true h0
  have hc1 : chSave c req.url rec.code rec.msg rec.headers rec.data now =
      cacheSet c req.url ⟨some cd, rec.msg, rec.headers, rec.data, now⟩ := by
    unfold chSave
    rw [hcd]
  simp only [chHttpError304, hload, htr, if_pos, hc1]
  have hload1 : chLoad (cacheSet c req.url ⟨some cd, rec.msg, rec.headers, rec.data, now⟩)
      (addUnredirected ⟨req.url, buildHeaders req.headers, []⟩ "Morss" "from_304").url =
      ⟨some cd, rec.msg, rec.headers, rec.data, now⟩ := by
    unfold chLoad
    rw [show (addUnredirected ⟨req.url, buildHeaders req.headers, []⟩ "Morss"
      "from_304").url = req.url from rfl]
    rw [cacheGet_set_self]
    rfl
  exact chOpen_from_304 fm priv _ _ now ⟨some cd, rec.msg, rec.headers, rec.data, now⟩ cd
    hload1 rfl (sdictGet_buildHeaders_none _ _ hm) rfl hnm hk

/-- C1 witness: a concrete cached record is replayed on a 304 and the timestamp
is refreshed. -/
theorem C1_witness :
    chHttpError304 none false
        [("http://u", ⟨some 200, some "OK", [("ETag", "x")], [104, 105], 50⟩)]
        ⟨"http://u", [("Accept", "a")], []⟩ 99 =
      (Except.ok (some ⟨[104, 105], [("ETag", "x"), ("morss", "from_cache")], "http://u",
        some 200, some "OK"⟩),
       [("http://u", ⟨some 200, some "OK", [("ETag", "x")], [104, 105], 99⟩)]) :=
  C1_304_replays_cache none false _ _ 99 ⟨some 200, some "OK", [("ETag", "x")], [104, 105], 50⟩
    200 rfl rfl (by decide) (by decide) (by decide) (by decide)

/-- Header block carrying no Morss header at all (any letter case). -/
def MorssFree (h : List (String × String)) : Prop := ∀ kv ∈ h, ¬ sLower kv.1 = "morss"

instance (h : List (String × String)) : Decidable (MorssFree h) := by
  unfold MorssFree
  infer_instance

/-- Cache states none of whose stored records carry a Morss header. -/
def NoMorssStored (c : Cache) : Prop := ∀ e ∈ c, MorssFree e.2.headers

/-- Cache states reachable by sequences of cache-middleware operations starting
from the empty cache: response-hook runs on network responses carrying no Morss
header, response-hook runs on responses the open hook itself synthesised, and
304-handler runs. -/
inductive CacheReach : Cache → Prop
  | nil : CacheReach []
  | net (fm : Option Int) (priv : Bool) (c : Cache) (url : String) (resp : PyResponse)
      (now : Int) : CacheReach c → MorssFree resp.headers →
      CacheReach (chHttpResponse fm priv c url resp now).2
  | synth (fm : Option Int) (priv : Bool) (c : Cache) (url : String) (req : PyRequest)
      (now now2 : Int) (r : PyResponse) : CacheReach c →
      chHttpOpen fm priv c req now = Except.ok (some r) →
      CacheReach (chHttpResponse fm priv c url r now2).2
  | err304 (fm : Option Int) (priv : Bool) (c : Cache) (req : PyRequest) (now : Int) :
      CacheReach c → CacheReach (chHttpError304 fm priv c req now).2

theorem chLoad_morssFree (c : Cache) (u : String) (h : NoMorssStored c) :
    MorssFree (chLoad c u).headers := by
  unfold chLoad cacheGet
  cases hf : c.find? (fun e => e.1 = u) with
  | none => exact fun kv hkv => absurd hkv (List.not_mem_nil kv)
  | some e => exact h e (List.mem_of_find?_eq_some hf)

theorem noMorss_save (c : Cache) (u : String) (code : Option Int) (msg : Option String)
    (hdrs : List (String × String)) (data : List Nat) (ts : Int)
    (hc : NoMorssStored c) (hh : MorssFree hdrs) :
    NoMorssStored (chSave c u code msg hdrs data ts) := by
  intro e he
  unfold chSave cacheSet at he
  rcases List.mem_append.mp he with he | he
  · exact hc e (List.mem_of_mem_filter he)
  · rw [List.mem_singleton.mp he]
    exact hh

theorem httpResponse_preserves (fm : Option Int) (priv : Bool) (c : Cache) (url : String)
    (resp : PyResponse) (now : Int) (hc : NoMorssStored c)
    (hok : MorssFree resp.headers ∨ hGet resp.headers "Morss" = some "from_cache") :
    NoMorssStored (chHttpResponse fm priv c url resp now).2 := by
  unfold chHttpResponse
  split
  · exact hc
  · split
    · exact hc
    · split
      · exact hc
      · rcases hok with hfree | hfc
        · exact noMorss_save _ _ _ _ _ _ _ hc hfree
        · rename_i hcond
          exact absurd hfc hcond

theorem httpOpen_some_morss (fm : Option Int) (priv : Bool) (c : Cache) (req : PyRequest)
    (now : Int) (r : PyResponse) (hc : NoMorssStored c)
    (hr : chHttpOpen fm priv c req now = Except.ok (some r)) :
    hGet r.headers "Morss" = some "from_cache" := by
  have hfree : MorssFree (chLoad c req.url).headers := chLoad_morssFree c req.url hc
  have harg : ∀ kv ∈ (chLoad c req.url).headers, ¬ sLower kv.1 = sLower "Morss" :=
    fun kv hkv => by
      rw [show sLower "Morss" = "morss" from rfl]
      exact hfree kv hkv
  have huse : hGet (hSet (chLoad c req.url).headers "morss" "from_cache") "Morss" =
      some "from_cache" := hGet_append_last _ _ _ _ harg (by decide)
  have huse2 : hGet (hSet (chLoad c req.url).headers "Morss" "from_cache") "Morss" =
      some "from_cache" := hGet_append_last _ _ _ _ harg (by decide)
  cases hcv : ccValues (chLoad c req.url).headers with
  | none =>
    simp only [chHttpOpen, hcv] at hr
    exact Except.noConfusion hr
  | some d =>
    simp only [chHttpOpen, hcv] at hr
    repeat' split at hr
    all_goals
      first
      | (injection hr with h1; injection h1 with h2; subst h2;
          first | exact huse | exact huse2)
      | (injection hr with h1; exact Option.noConfusion h1)
      | exact Except.noConfusion hr

theorem chOpen_preserves (fm : Option Int) (priv : Bool) (c : Cache) (q : PyRequest)
    (now : Int) (hc : NoMorssStored c) :
    NoMorssStored (chOpen fm priv c q now).2 := by
  cases ho : chHttpOpen fm priv c (chHttpRequest c q) now with
  | error e =>
    simp only [chOpen, ho]
    exact hc
  | ok o =>
    cases o with
    | none =>
      simp only [chOpen, ho]
      exact hc
    | some r =>
      simp only [chOpen, ho]
      exact httpResponse_preserves _ _ _ _ _ _ hc
        (Or.inr (httpOpen_some_morss _ _ _ _ _ _ hc ho))

theorem httpError304_preserves (fm : Option Int) (priv : Bool) (c : Cache)
    (req : PyRequest) (now : Int) (hc : NoMorssStored c) :
    NoMorssStored (chHttpError304 fm priv c req now).2 := by
  simp only [chHttpError304]
  split
  · exact chOpen_preserves _ _ _ _ _
      (noMorss_save _ _ _ _ _ _ _ hc (chLoad_morssFree c req.url hc))
  · exact hc

theorem cacheReach_noMorss (c : Cache) (h : CacheReach c) : NoMorssStored c := by
  induction h with
  | nil => exact fun e he => absurd he (List.not_mem_nil e)
  | net fm priv c url resp now hr hfree ih =>
    exact httpResponse_preserves fm priv c url resp now ih (Or.inl hfree)
  | synth fm priv c url req now now2 r hr hopen ih =>
    exact httpResponse_preserves fm priv c url r now2 ih
      (Or.inr (httpOpen_some_morss fm priv c req now r ih hopen))
  | err304 fm priv c req now hr ih =>
    exact httpError304_preserves fm priv c req now ih

/-- C4 counterexample: a network response carrying Morss: evil for a URL is
stored; a later cache hit synthesises a response whose first Morss value is
still evil, so the response hook's save step does not skip it and re-stores it
together with the appended morss: from_cache marker — the stored record now
contains Morss: from_cache, contradicting the claimed invariant. -/
theorem C4_counterexample :
    (let c1 := (chHttpResponse (some (-1)) false [] "http://a"
      ⟨[], [("Morss", "evil")], "http://a", some 200, some "OK"⟩ 0).2
    match chHttpOpen (some (-1)) false c1 ⟨"http://a", [], []⟩ 1 with
    | Except.ok (some r2) =>
      (chHttpResponse (some (-1)) false c1 "http://a" r2 1).2.any
        (fun e => e.2.headers.any (fun kv => sLower kv.1 = "morss" ∧ kv.2 = "from_cache"))
    | _ => false) = true := by decide

/-- C4 amended: provided no incoming network response carries a Morss header,
every cache state reachable by the middleware's operations stores no record
whose serialised headers contain Morss: from_cache (the synthesised marker is
recognised by the save step's Morss check and skipped). -/
theorem C4_no_from_cache_stored (c : Cache) (h : CacheReach c) :
    ∀ e ∈ c, ∀ kv ∈ e.2.headers, ¬ (sLower kv.1 = "morss" ∧ kv.2 = "from_cache") := by
  intro e he kv hkv hand
  exact cacheReach_noMorss c h e he kv hkv hand.1

/-- C4 witness: a concrete reachable one-entry cache state satisfies the
invariant at its stored header. -/
theorem C4_witness :
    (("http://b", (⟨some 200, some "OK", [("X", "y")], [7], (5 : Int)⟩ : CacheRecord)) ∈
      (chHttpResponse none false [] "http://b"
        ⟨[7], [("X", "y")], "http://b", some 200, some "OK"⟩ 5).2) ∧
    ¬ (sLower "X" = "morss" ∧ ("y" : String) = "from_cache") :=
  ⟨by decide,
    C4_no_from_cache_stored _
      (CacheReach.net none false [] "http://b"
        ⟨[7], [("X", "y")], "http://b", some 200, some "OK"⟩ 5 CacheReach.nil
        (by decide))
      ("http://b", (⟨some 200, some "OK", [("X", "y")], [7], (5 : Int)⟩ : CacheRecord))
      (by decide) ("X", "y") (by decide)⟩

/-- UTF-8 bytes of one character (used by quote and by the strict str/bytes
conversions in sanitize_url). -/
def utf8Bytes (c : Char) : List Nat :=
  let n := c.toNat
  if n < 128 then [n]
  else if n < 2048 then [192 + n / 64, 128 + n % 64]
  else if n < 65536 then [224 + n / 4096, 128 + (n / 64) % 64, 128 + n % 64]
  else [240 + n / 262144, 128 + (n / 4096) % 64, 128 + (n / 64) % 64, 128 + n % 64]

def utf8Encode : Str → List Nat
  | [] => []
  | c :: rest => utf8Bytes c ++ utf8Encode rest

/-- Continuation byte test of the strict UTF-8 decoder. -/
def contOk (b : Nat) : Bool := 128 ≤ b ∧ b ≤ 191

/-- Strict UTF-8 decoding as Python bytes.decode() performs it: overlong forms,
lone continuation bytes, surrogates and out-of-range sequences are rejected. -/
def utf8Decode : List Nat → Option Str
  | [] => some []
  | b :: rest =>
    if b < 128 then (utf8Decode rest).map (fun s => Char.ofNat b :: s)
    else if 194 ≤ b ∧ b ≤ 223 then
      match rest with
      | b2 :: r =>
        if contOk b2 then
          (utf8Decode r).map (fun s => Char.ofNat ((b - 192) * 64 + (b2 - 128)) :: s)
        else none
      | [] => none
    else if 224 ≤ b ∧ b ≤ 239 then
      match rest with
      | b2 :: b3 :: r =>
        if (if b = 224 then 160 else 128) ≤ b2 ∧ b2 ≤ (if b = 237 then 159 else 191) ∧
            contOk b3 then
          (utf8Decode r).map
            (fun s => Char.ofNat ((b - 224) * 4096 + (b2 - 128) * 64 + (b3 - 128)) :: s)
        else none
      | _ => none
    else if 240 ≤ b ∧ b ≤ 244 then
      match rest with
      | b2 :: b3 :: b4 :: r =>
        if (if b = 240 then 144 else 128) ≤ b2 ∧ b2 ≤ (if b = 244 then 143 else 191) ∧
            contOk b3 ∧ contOk b4 then
          (utf8Decode r).map (fun s => Char.ofNat
            ((b - 240) * 262144 + (b2 - 128) * 4096 + (b3 - 128) * 64 + (b4 - 128)) :: s)
        else none
      | _ => none
    else none

/-- Bytes urllib.parse.quote leaves unescaped with the default safe set: the
always-safe letters, digits, _ . - ~ plus the default safe character /. -/
def alwaysSafeByte (b : Nat) : Bool :=
  (65 ≤ b ∧ b ≤ 90) || (97 ≤ b ∧ b ≤ 122) || (48 ≤ b ∧ b ≤ 57) ||
    b = 95 || b = 46 || b = 45 || b = 126 || b = 47

/-- Upper-case hexadecimal digit. -/
def hexDigit (n : Nat) : Char := if n < 10 then Char.ofNat (48 + n) else Char.ofNat (55 + n)

def quoteBytes : List Nat → Str
  | [] => []
  | b :: rest =>
    (if alwaysSafeByte b then [Char.ofNat b] else ['%', hexDigit (b / 16), hexDigit (b % 16)]) ++
      quoteBytes rest

/-- urllib.parse.quote(s.encode(utf-8)) with the default safe set. -/
def pyQuote (s : Str) : Str := quoteBytes (utf8Encode s)

/-- Label separators of the idna codec (ASCII dot plus the three unicode dots). -/
def dotChar (c : Char) : Bool :=
  c = '.' ∨ c = Char.ofNat 12290 ∨ c = Char.ofNat 65294 ∨ c = Char.ofNat 65377

/-- Split on a separator predicate, keeping empty segments (re.split). -/
def splitOnP (p : Char → Bool) : Str → List Str
  | [] => [[]]
  | c :: rest =>
    if p c then [] :: splitOnP p rest
    else
      match splitOnP p rest with
      | l :: ls => (c :: l) :: ls
      | [] => [[c]]

/-- Base-36 digit, lower case. -/
def d36 (n : Nat) : Char := if n < 10 then Char.ofNat (48 + n) else Char.ofNat (87 + n)

/-- Base-36 digits of a number, with enough fuel to stay kernel-reducible. -/
def natDigits36 : Nat → Nat → Str
  | 0, _ => []
  | fuel + 1, n => if n < 36 then [d36 n] else natDigits36 fuel (n / 36) ++ [d36 (n % 36)]

/-- is_ascii of the source: str.encode(ascii) succeeds iff every character is
below 128 (Lean strings carry no surrogates). -/
def isAsciiChar (c : Char) : Bool := c.toNat < 128

def strAscii (s : Str) : Bool := s.all isAsciiChar

/-- Modelled from the Python stdlib idna codec, which the source invokes as
parts[i].encode(idna) on a non-ASCII netloc: labels are split on the four dot
characters, a trailing empty label becomes a trailing dot, and each label goes
through ToASCII with its 0 < length < 64 checks (an empty or oversized label
raises, one of the failures the totality claim is corrected by).  The
nameprep+punycode body of ToASCII is abstracted: nameprep casefolds, punycode
copies basic (ASCII) code points literally, and each non-basic code point is
abstracted by base-36 digits (a-z, 0-9); theorems below depend only on the
literal ASCII pass-through and the digit alphabet, never on the exact digits.
Nameprep's prohibited-character UnicodeError (as for U+2028) is not modelled,
so the model can encode a label the codec rejects: theorems use an encoder
result only as a hypothesis, never to conclude that the codec itself
returns. -/
def toASCIIModel (label : Str) : Option Str :=
  if strAscii label then
    if 0 < label.length ∧ label.length < 64 then some label else none
  else
    let out := "xn--".toList ++ label.foldr (fun c acc =>
      (if isAsciiChar c then [c.toLower] else natDigits36 8 c.toNat) ++ acc) []
    if out.length < 64 then some out else none

def joinDots : List Str → Str
  | [] => []
  | [l] => l
  | l :: ls => l ++ '.' :: joinDots ls

/-- The idna codec's encode on a non-empty input (the source only reaches it
for non-ASCII netlocs): label split, trailing-dot handling, per-label ToASCII. -/
def idnaModel (s : Str) : Option Str :=
  if s.isEmpty then some []
  else
    let labels0 := splitOnP dotChar s
    let ht : List Str × Str :=
      match labels0.getLast? with
      | some [] => (labels0.dropLast, ['.'])
      | _ => (labels0, [])
    (ht.1.mapM toASCIIModel).map (fun ls => joinDots ls ++ ht.2)

/-- The protocols sanitize_url recognises (module constant PROTOCOL). -/
def PROTOCOL : List Str := ["http".toList, "https".toList]

/-- Python url.split(the colon, 1)[0]. -/
def untilColon (s : Str) : Str := s.takeWhile (· ≠ ':')

/-- Step one of sanitize_url: prepend http:// when the scheme prefix is not a
known protocol. -/
def addProto (s : Str) : Str :=
  if untilColon s ∈ PROTOCOL then s else "http://".toList ++ s

/-- Step two of sanitize_url: the regex sub of badly formatted urls,
re.sub of the anchored pattern (https?):/([^/]) with the backreferences and a
doubled slash, i.e. insert the missing slash right after http:/ or https:/. -/
def fixSlash (s : Str) : Str :=
  if s.take 6 = "http:/".toList ∧ ¬ s.take 7 = "http://".toList ∧ 7 ≤ s.length then
    "http://".toList ++ s.drop 6
  else if s.take 7 = "https:/".toList ∧ ¬ s.take 8 = "https://".toList ∧ 8 ≤ s.length then
    "https://".toList ++ s.drop 7
  else s

/-- The strings the fixSlash regex matches, i.e. the sanitiser outputs on which
a second pass rewrites the url (the exception the idempotence claim is
corrected by). -/
def collapsedForm (s : Str) : Bool :=
  (s.take 6 = "http:/".toList ∧ ¬ s.take 7 = "http://".toList ∧ 7 ≤ s.length) ∨
    (s.take 7 = "https:/".toList ∧ ¬ s.take 8 = "https://".toList ∧ 8 ≤ s.length)

/-- Step three of sanitize_url: url.replace of a space by %20. -/
def escSpaces : Str → Str
  | [] => []
  | c :: rest => (if c = ' ' then "%20".toList else [c]) ++ escSpaces rest

/-- Characters of the scheme_chars set of urllib.parse. -/
def schemeChar (c : Char) : Bool := c.isAlpha || c.isDigit || c = '+' || c = '-' || c = '.'

/-- Split at the first occurrence of a character, the remainder empty when the
character is absent (matching str.split(ch, 1) with a default of the empty
string for the second part, as urlsplit uses it for # and ?). -/
def cutAt (ch : Char) (s : Str) : Str × Str :=
  let a := s.takeWhile (· ≠ ch)
  (a, s.drop (a.length + 1))

/-- Characters ending the netloc in _splitnetloc. -/
def notDelim (c : Char) : Bool := ¬ (c = '/' ∨ c = '?' ∨ c = '#')

/-- The netloc extraction of urlsplit: only when the remainder starts //. -/
def netlocSplit (rest : Str) : Str × Str :=
  if rest.take 2 = ['/', '/'] then
    let nl := (rest.drop 2).takeWhile notDelim
    (nl, rest.drop (2 + nl.length))
  else ([], rest)

/-- urlsplit after the scheme has been removed: netloc, the IPv6 bracket check
(the ValueError the totality claim is corrected by), then fragment and query. -/
def splitAfterScheme (scheme rest : Str) : Option (Str × Str × Str × Str × Str) :=
  let nl := netlocSplit rest
  if (('[' ∈ nl.1) ∧ ¬ (']' ∈ nl.1)) ∨ ((']' ∈ nl.1) ∧ ¬ ('[' ∈ nl.1)) then none
  else
    let bf := cutAt '#' nl.2
    let pq := cutAt '?' bf.1
    some (scheme, nl.1, pq.1, pq.2, bf.2)

/-- urllib.parse.urlsplit (CPython 3.8 algorithm, scheme recognised when the
text before the first colon is a non-empty run of scheme characters).  The
3.8-era _checknetloc ValueError — raised when NFKC normalization of a
non-ASCII netloc introduces a delimiter, as for U+2100 — is not modelled, so
the model can parse a non-ASCII netloc the library rejects: theorems therefore
use a successful parse only as a hypothesis, or conclude success only for an
ASCII netloc, where _checknetloc returns before normalizing. -/
def urlsplitModel (url : Str) : Option (Str × Str × Str × Str × Str) :=
  let pre := url.takeWhile (· ≠ ':')
  if pre.length < url.length ∧ 0 < pre.length ∧ pre.all schemeChar then
    splitAfterScheme (strLower pre) (url.drop (pre.length + 1))
  else splitAfterScheme [] url

/-- The text after the last slash (the region _splitparams searches in). -/
def afterLastSlash (p : Str) : Str := (p.reverse.takeWhile (· ≠ '/')).reverse

/-- urllib.parse._splitparams. -/
def splitparamsModel (p : Str) : Str × Str :=
  if '/' ∈ p then
    let B := afterLastSlash p
    if ';' ∈ B then
      (p.take (p.length - B.length) ++ B.takeWhile (· ≠ ';'),
        B.drop ((B.takeWhile (· ≠ ';')).length + 1))
    else (p, [])
  else cutAt ';' p

/-- The params step of urlparse: split only when a semicolon is present. -/
def paramSplit (p : Str) : Str × Str :=
  if ';' ∈ p then splitparamsModel p else (p, [])

/-- The six urlparse components. -/
structure UrlParts where
  scheme : Str
  netloc : Str
  path : Str
  params : Str
  query : Str
  fragment : Str
deriving Repr, DecidableEq

/-- urllib.parse.urlparse: urlsplit plus the params split. -/
def urlparseModel (url : Str) : Option UrlParts :=
  (urlsplitModel url).map (fun t =>
    let pp := paramSplit t.2.2.1
    ⟨t.1, t.2.1, pp.1, pp.2, t.2.2.2.1, t.2.2.2.2⟩)

/-- urllib.parse.urlunsplit. -/
def urlunsplitModel (scheme netloc url query fragment : Str) : Str :=
  let url1 :=
    if ¬ netloc.isEmpty ∨ (¬ url.isEmpty ∧ url.take 2 = ['/', '/']) then
      '/' :: '/' :: (netloc ++
        (if ¬ url.isEmpty ∧ ¬ url.take 1 = ['/'] then '/' :: url else url))
    else url
  let url2 := if ¬ scheme.isEmpty then scheme ++ ':' :: url1 else url1
  let url3 := if ¬ query.isEmpty then url2 ++ '?' :: query else url2
  if ¬ fragment.isEmpty then url3 ++ '#' :: fragment else url3

/-- The path;params join of urlunparse. -/
def joinPP (path params : Str) : Str :=
  if ¬ params.isEmpty then path ++ ';' :: params else path

/-- urllib.parse.urlunparse. -/
def urlunparseModel (P : UrlParts) : Str :=
  urlunsplitModel P.scheme P.netloc (joinPP P.path P.params) P.query P.fragment

/-- The per-component ASCII fix-up of sanitize_url for every component except
the netloc: quote(part.encode(utf-8)) when the part is not ASCII. -/
def asciifyOther (p : Str) : Str := if strAscii p then p else pyQuote p

/-- The netloc fix-up of sanitize_url: part.encode(idna).decode(ascii) when the
netloc is not ASCII; the idna encoder may raise, and a non-ASCII encoder output
would make the ascii decode raise. -/
def asciifyNetloc (idna : Str → Option Str) (p : Str) : Option Str :=
  if strAscii p then some p
  else (idna p).bind (fun o => if strAscii o then some o else none)

/-- sanitize_url on a unicode string (source lines 149-176): ensure a protocol,
repair http:/x, escape spaces, parse, IDNA-encode or percent-quote the
non-ASCII components, re-join.  none models an uncaught Python exception. -/
def sanitize_url_str (idna : Str → Option Str) (url : Str) : Option Str :=
  let u3 := escSpaces (fixSlash (addProto url))
  match urlparseModel u3 with
  | none => none
  | some P =>
    (asciifyNetloc idna P.netloc).map (fun netloc =>
      urlunparseModel ⟨asciifyOther P.scheme, netloc, asciifyOther P.path,
        asciifyOther P.params, asciifyOther P.query, asciifyOther P.fragment⟩)

/-- sanitize_url on either input kind: bytes are first decoded as UTF-8. -/
def sanitize_url (idna : Str → Option Str) : Sum (List Nat) Str → Option Str
  | Sum.inl bs => (utf8Decode bs).bind (sanitize_url_str idna)
  | Sum.inr s => sanitize_url_str idna s

/-- C7 counterexample: sanitize_url is not idempotent.  On http:///a the parse
yields an empty netloc with path /a, and urlunparse collapses it to http:/a;
the second pass's regex repair then rewrites that to http://a, a different
string (and a different parse: netloc a instead of path /a). -/
theorem C7_counterexample :
    sanitize_url_str idnaModel "http:///a".toList = some "http:/a".toList ∧
      sanitize_url_str idnaModel "http:/a".toList = some "http://a".toList ∧
      ¬ (sanitize_url_str idnaModel "http:///a".toList).bind (sanitize_url_str idnaModel) =
        sanitize_url_str idnaModel "http:///a".toList := by decide

/-- C8 counterexample: sanitize_url is not total.  Bytes that are not UTF-8
raise at url.decode(); a netloc with an unmatched IPv6 bracket raises
ValueError inside urlparse; a non-ASCII netloc with an empty label makes the
idna codec raise (label empty or too long). -/
theorem C8_counterexample :
    sanitize_url idnaModel (Sum.inl [255]) = none ∧
      sanitize_url idnaModel (Sum.inr "http://[a".toList) = none ∧
      sanitize_url idnaModel
        (Sum.inr ("http://".toList ++ [Char.ofNat 233] ++ "..com".toList)) = none := by
  decide

theorem takeWhile_all_sat {p : Char → Bool} : ∀ {a : Str}, (∀ c ∈ a, p c = true) →
    a.takeWhile p = a
  | [], _ => rfl
  | c :: t, h => by
    have hc := h c (List.mem_cons_self c t)
    simp only [List.takeWhile, hc]
    exact congrArg (c :: ·) (takeWhile_all_sat (fun d hd => h d (List.mem_cons_of_mem _ hd)))

theorem takeWhile_stop {p : Char → Bool} : ∀ (a : Str) (b : Char) (t : Str),
    (∀ c ∈ a, p c = true) → p b = false → (a ++ b :: t).takeWhile p = a
  | [], b, t, _, hb => by simp [List.takeWhile, hb]
  | c :: a, b, t, ha, hb => by
    have hc := ha c (List.mem_cons_self c a)
    simp only [List.cons_append, List.takeWhile, hc]
    exact congrArg (c :: ·)
      (takeWhile_stop a b t (fun d hd => ha d (List.mem_cons_of_mem _ hd)) hb)

theorem drop_after (a : Str) (b : Char) (t : Str) : (a ++ b :: t).drop (a.length + 1) = t := by
  induction a with
  | nil => rfl
  | cons c a ih =>
    simp only [List.cons_append, List.length_cons, List.drop_succ_cons]
    exact ih

theorem mem_takeWhile_mem {p : Char → Bool} {l : Str} {c : Char}
    (h : c ∈ l.takeWhile p) : c ∈ l :=
  List.Sublist.subset (List.takeWhile_sublist p) h

theorem dropWhile_head {p : Char → Bool} : ∀ {l : Str} {c : Char} {t : Str},
    l.dropWhile p = c :: t → p c = false
  | [], _, _, h => by simp [List.dropWhile] at h
  | a :: l, c, t, h => by
    simp only [List.dropWhile] at h
    cases ha : p a with
    | true =>
      rw [ha] at h
      exact dropWhile_head h
    | false =>
      rw [ha] at h
      injection h with h1 h2
      rw [← h1]
      exact ha

theorem cutAt_mk (ch : Char) (a b : Str) (ha : ch ∉ a) : cutAt ch (a ++ ch :: b) = (a, b) := by
  unfold cutAt
  have h1 : (a ++ ch :: b).takeWhile (· ≠ ch) = a :=
    takeWhile_stop a ch b (fun c hc => by simp; exact fun he => ha (he ▸ hc)) (by simp)
  rw [h1]
  show (a, (a ++ ch :: b).drop (a.length + 1)) = (a, b)
  rw [drop_after]

theorem cutAt_none (ch : Char) (a : Str) (ha : ch ∉ a) : cutAt ch a = (a, []) := by
  unfold cutAt
  have h1 : a.takeWhile (· ≠ ch) = a :=
    takeWhile_all_sat (fun c hc => by simp; exact fun he => ha (he ▸ hc))
  rw [h1]
  exact congrArg (a, ·) (List.drop_eq_nil_of_le (by omega))

theorem cutAt_fst_sub (ch : Char) (s : Str) : ∀ c ∈ (cutAt ch s).1, c ∈ s :=
  fun _ hc => mem_takeWhile_mem hc

theorem cutAt_snd_sub (ch : Char) (s : Str) : ∀ c ∈ (cutAt ch s).2, c ∈ s :=
  fun _ hc => List.drop_subset _ s hc

theorem cutAt_fst_free (ch : Char) (s : Str) : ch ∉ (cutAt ch s).1 := by
  intro h
  have := List.mem_takeWhile_imp h
  simp at this

theorem escSpaces_append (a b : Str) : escSpaces (a ++ b) = escSpaces a ++ escSpaces b := by
  induction a with
  | nil => rfl
  | cons c a ih => simp [escSpaces, ih]

theorem escSpaces_no_space (s : Str) : ' ' ∉ escSpaces s := by
  induction s with
  | nil => simp [escSpaces]
  | cons c s ih =>
    intro h
    simp only [escSpaces] at h
    rcases List.mem_append.mp h with h | h
    · by_cases hc : c = ' '
      · rw [if_pos hc] at h
        revert h
        decide
      · rw [if_neg hc] at h
        rcases List.mem_singleton.mp h with rfl
        exact hc rfl
    · exact ih h

theorem escSpaces_id : ∀ (s : Str), ' ' ∉ s → escSpaces s = s
  | [], _ => rfl
  | c :: s, h => by
    have hc : ¬ c = ' ' := fun he => h (he ▸ List.mem_cons_self c s)
    simp only [escSpaces, if_neg hc, List.singleton_append]
    exact congrArg (c :: ·) (escSpaces_id s (fun hm => h (List.mem_cons_of_mem _ hm)))

theorem afterLastSlash_sub (p : Str) : ∀ c ∈ afterLastSlash p, c ∈ p := by
  intro c hc
  unfold afterLastSlash at hc
  exact List.mem_reverse.mp (mem_takeWhile_mem (List.mem_reverse.mp hc))

theorem afterLastSlash_free (p : Str) : '/' ∉ afterLastSlash p := by
  intro h
  unfold afterLastSlash at h
  have := List.mem_takeWhile_imp (List.mem_reverse.mp h)
  simp at this

theorem afterLastSlash_append (a b : Str) (hb : '/' ∉ b) :
    afterLastSlash (a ++ '/' :: b) = b := by
  unfold afterLastSlash
  rw [List.reverse_append, List.reverse_cons, List.append_assoc]
  have h1 : (b.reverse ++ ('/' :: a.reverse)).takeWhile (· ≠ '/') = b.reverse :=
    takeWhile_stop _ _ _
      (fun c hc => by simp; exact fun he => hb (he ▸ List.mem_reverse.mp hc)) (by simp)
  rw [show ['/'] ++ a.reverse = '/' :: a.reverse from rfl, h1, List.reverse_reverse]

theorem slash_decomp (x : Str) (h : '/' ∈ x) :
    ∃ F1, x = F1 ++ '/' :: afterLastSlash x := by
  have hR : '/' ∈ x.reverse := List.mem_reverse.mpr h
  have hd : x.reverse.dropWhile (· ≠ '/') ≠ [] := by
    intro he
    have h2 : x.reverse.takeWhile (· ≠ '/') = x.reverse := by
      have h3 := List.takeWhile_append_dropWhile (· ≠ '/') x.reverse
      rw [he, List.append_nil] at h3
      exact h3
    have := List.mem_takeWhile_imp (h2 ▸ hR)
    simp at this
  obtain ⟨c, E, hE⟩ := List.exists_cons_of_ne_nil hd
  have hc : (fun x => decide (x ≠ '/')) c = false := dropWhile_head hE
  have hc' : c = '/' := by simpa using hc
  subst hc'
  have hdecomp := List.takeWhile_append_dropWhile (fun x => decide (x ≠ '/')) x.reverse
  rw [hE] at hdecomp
  refine ⟨E.reverse, ?_⟩
  have hx : x = (x.reverse.takeWhile (· ≠ '/') ++ '/' :: E).reverse := by
    have h4 := congrArg List.reverse hdecomp.symm
    rwa [List.reverse_reverse] at h4
  conv_lhs => rw [hx]
  rw [List.reverse_append, List.reverse_cons, List.append_assoc]
  rfl

/-- The region condition _splitparams guarantees for the path component: no
semicolon after the last slash (or anywhere, when there is no slash). -/
def P1cond (p : Str) : Prop :=
  ('/' ∈ p → ';' ∉ afterLastSlash p) ∧ ('/' ∉ p → ';' ∉ p)

theorem P1cond_noSemi (p : Str) (h : ';' ∉ p) : P1cond p :=
  ⟨fun _ hm => h (afterLastSlash_sub p _ hm), fun _ => h⟩

theorem paramSplit_no_slash (x : Str) : '/' ∉ (paramSplit x).2 := by
  unfold paramSplit splitparamsModel
  by_cases hs : ';' ∈ x
  · rw [if_pos hs]
    by_cases hsl : '/' ∈ x
    · rw [if_pos hsl]
      by_cases hsb : ';' ∈ afterLastSlash x
      · rw [if_pos hsb]
        intro hm
        exact afterLastSlash_free x (List.drop_subset _ _ hm)
      · rw [if_neg hsb]
        simp
    · rw [if_neg hsl]
      intro hm
      exact hsl (cutAt_snd_sub ';' x _ hm)
  · rw [if_neg hs]
    simp

theorem paramSplit_P1 (x : Str) : P1cond (paramSplit x).1 := by
  unfold paramSplit splitparamsModel
  by_cases hs : ';' ∈ x
  · rw [if_pos hs]
    by_cases hsl : '/' ∈ x
    · rw [if_pos hsl]
      by_cases hsb : ';' ∈ afterLastSlash x
      · rw [if_pos hsb]
        show P1cond (x.take (x.length - (afterLastSlash x).length) ++
          (afterLastSlash x).takeWhile (· ≠ ';'))
        obtain ⟨F1, hx⟩ := slash_decomp x hsl
        have hBfree : '/' ∉ afterLastSlash x := afterLastSlash_free x
        have hlen : x.length - (afterLastSlash x).length = F1.length + 1 := by
          conv_lhs => rw [hx]
          rw [afterLastSlash_append _ _ hBfree]
          simp [List.length_append]
          omega
        have htake : x.take (x.length - (afterLastSlash x).length) = F1 ++ ['/'] := by
          rw [hlen]
          conv_lhs => rw [hx]
          rw [show F1.length + 1 = F1.length + 1 from rfl, List.take_append 1]
          rfl
        rw [htake]
        have hTfree : '/' ∉ (afterLastSlash x).takeWhile (· ≠ ';') :=
          fun hm => hBfree (mem_takeWhile_mem hm)
        constructor
        · intro _ hm
          rw [List.append_assoc,
            show ['/'] ++ (afterLastSlash x).takeWhile (· ≠ ';') =
              '/' :: (afterLastSlash x).takeWhile (· ≠ ';') from rfl,
            afterLastSlash_append _ _ hTfree] at hm
          have := List.mem_takeWhile_imp hm
          simp at this
        · intro hn
          exact absurd
            (List.mem_append.mpr (Or.inl (List.mem_append.mpr (Or.inr (by simp))))) hn
      · rw [if_neg hsb]
        exact ⟨fun _ => hsb, fun hn => absurd hsl hn⟩
    · rw [if_neg hsl]
      refine P1cond_noSemi _ (cutAt_fst_free ';' x)
  · rw [if_neg hs]
    exact P1cond_noSemi x hs

theorem paramSplit_self (p : Str) (h1 : P1cond p) : paramSplit p = (p, []) := by
  unfold paramSplit splitparamsModel
  by_cases hs : ';' ∈ p
  · rw [if_pos hs]
    by_cases hsl : '/' ∈ p
    · rw [if_pos hsl, if_neg (h1.1 hsl)]
    · exact absurd hs (h1.2 hsl)
  · rw [if_neg hs]

theorem pp_roundtrip (p par : Str) (h1 : P1cond p) (h2 : '/' ∉ par) :
    paramSplit (joinPP p par) = (p, par) := by
  unfold joinPP
  by_cases hpar : par.isEmpty
  · rw [if_neg (not_not_intro hpar)]
    rw [List.isEmpty_iff.mp hpar]
    exact paramSplit_self p h1
  · rw [if_pos hpar]
    have hsemi : (';' : Char) ∈ p ++ ';' :: par := List.mem_append.mpr (Or.inr (by simp))
    unfold paramSplit
    rw [if_pos hsemi]
    unfold splitparamsModel
    by_cases hsl : '/' ∈ p
    · have hslj : '/' ∈ p ++ ';' :: par := List.mem_append.mpr (Or.inl hsl)
      rw [if_pos hslj]
      obtain ⟨F1, hx⟩ := slash_decomp p hsl
      have hBfree : '/' ∉ afterLastSlash p := afterLastSlash_free p
      have hBsemi : ';' ∉ afterLastSlash p := h1.1 hsl
      have hjoin : p ++ ';' :: par = F1 ++ '/' :: (afterLastSlash p ++ ';' :: par) := by
        conv_lhs => rw [hx]
        simp [List.append_assoc]
      have htail_free : '/' ∉ afterLastSlash p ++ ';' :: par := by
        intro hm
        rcases List.mem_append.mp hm with hm | hm
        · exact hBfree hm
        · rcases List.mem_cons.mp hm with hm | hm
          · exact absurd hm.symm (by decide)
          · exact h2 hm
      have hals : afterLastSlash (p ++ ';' :: par) = afterLastSlash p ++ ';' :: par := by
        rw [hjoin]
        exact afterLastSlash_append _ _ htail_free
      rw [hals, if_pos (List.mem_append.mpr (Or.inr (by simp)))]
      have htw : (afterLastSlash p ++ ';' :: par).takeWhile (· ≠ ';') = afterLastSlash p :=
        takeWhile_stop _ _ _
          (fun c hc => by simp; exact fun he => hBsemi (he ▸ hc)) (by simp)
      rw [htw]
      have hdrop : (afterLastSlash p ++ ';' :: par).drop ((afterLastSlash p).length + 1) = par :=
        drop_after _ _ _
      rw [hdrop]
      have hlen : (p ++ ';' :: par).length - (afterLastSlash p ++ ';' :: par).length =
          F1.length + 1 := by
        rw [hjoin]
        simp [List.length_append]
        omega
      have htake : (p ++ ';' :: par).take
          ((p ++ ';' :: par).length - (afterLastSlash p ++ ';' :: par).length) = F1 ++ ['/'] := by
        rw [hlen]
        conv_lhs => rw [hjoin]
        rw [List.take_append 1]
        rfl
      rw [htake]
      refine congrArg (·, par) ?_
      rw [List.append_assoc]
      exact (congrArg (F1 ++ ·) rfl).trans hx.symm
    · have hslj : '/' ∉ p ++ ';' :: par := by
        intro hm
        rcases List.mem_append.mp hm with hm | hm
        · exact hsl hm
        · rcases List.mem_cons.mp hm with hm | hm
          · exact absurd hm.symm (by decide)
          · exact h2 hm
      rw [if_neg hslj]
      exact cutAt_mk ';' p par (h1.2 hsl)

theorem char_toNat_inj {a b : Char} (h : a.toNat = b.toNat) : a = b := by
  rw [← Char.ofNat_toNat a, h, Char.ofNat_toNat]

theorem char_toNat_lt (c : Char) : c.toNat < 1114112 := by
  have h : c.toNat < 55296 ∨ (57343 < c.toNat ∧ c.toNat < 1114112) := c.valid
  omega

theorem toNat_ofNat_lt {b : Nat} (h : b < 55296) : (Char.ofNat b).toNat = b := by
  have hv : Nat.isValidChar b := Or.inl h
  simp [Char.ofNat, hv]
  rfl

theorem utf8Bytes_lt256 (c : Char) : ∀ b ∈ utf8Bytes c, b < 256 := by
  intro b hb
  have hc := char_toNat_lt c
  have h64 : c.toNat % 64 < 64 := Nat.mod_lt _ (by omega)
  have h4096 : (c.toNat / 4096) % 64 < 64 := Nat.mod_lt _ (by omega)
  have h64b : (c.toNat / 64) % 64 < 64 := Nat.mod_lt _ (by omega)
  have hdiv2 : c.toNat < 2048 → c.toNat / 64 < 32 :=
    fun h => (Nat.div_lt_iff_lt_mul (by omega)).mpr (by omega)
  have hdiv3 : c.toNat < 65536 → c.toNat / 4096 < 16 :=
    fun h => (Nat.div_lt_iff_lt_mul (by omega)).mpr (by omega)
  have hdiv4 : c.toNat / 262144 < 5 := (Nat.div_lt_iff_lt_mul (by omega)).mpr (by omega)
  simp only [utf8Bytes] at hb
  repeat' split at hb
  · simp at hb; omega
  · simp [List.mem_cons] at hb; rcases hb with hb | hb <;> omega
  · simp [List.mem_cons] at hb; rcases hb with hb | hb | hb <;> omega
  · simp [List.mem_cons] at hb; rcases hb with hb | hb | hb | hb <;> omega

theorem utf8Bytes_mem_47 {c : Char} (h : 47 ∈ utf8Bytes c) : c = '/' := by
  have h64 : c.toNat % 64 < 64 := Nat.mod_lt _ (by omega)
  simp only [utf8Bytes] at h
  repeat' split at h
  · simp at h
    exact char_toNat_inj (by rw [(by decide : ('/' : Char).toNat = 47)]; omega)
  · simp [List.mem_cons] at h; omega
  · simp [List.mem_cons] at h; omega
  · simp [List.mem_cons] at h; omega

theorem mem_utf8Encode : ∀ {s : Str} {b : Nat}, b ∈ utf8Encode s → ∃ c ∈ s, b ∈ utf8Bytes c
  | c :: rest, b, h => by
    rcases List.mem_append.mp h with h | h
    · exact ⟨c, List.mem_cons_self c rest, h⟩
    · obtain ⟨d, hd, hb⟩ := mem_utf8Encode h
      exact ⟨d, List.mem_cons_of_mem _ hd, hb⟩

theorem hexDigit_toNat {n : Nat} (h : n < 16) :
    (hexDigit n).toNat = if n < 10 then 48 + n else 55 + n := by
  unfold hexDigit
  split
  · exact toNat_ofNat_lt (by omega)
  · exact toNat_ofNat_lt (by omega)

theorem quoteBytes_safe : ∀ {bs : List Nat}, (∀ b ∈ bs, b < 256) → ∀ {c : Char},
    c ∈ quoteBytes bs →
    isAsciiChar c = true ∧ c ≠ '?' ∧ c ≠ '#' ∧ c ≠ ';' ∧ c ≠ ' ' ∧ c ≠ '[' ∧ c ≠ ']' ∧
      (c = '/' → 47 ∈ bs)
  | [], _, _, h => absurd h (List.not_mem_nil _)
  | b :: bs, hlt, c, h => by
    have hb256 : b < 256 := hlt b (List.mem_cons_self b bs)
    rcases List.mem_append.mp h with h | h
    · by_cases hs : alwaysSafeByte b
      · rw [if_pos hs] at h
        have hcb : c = Char.ofNat b := List.mem_singleton.mp h
        have htn : c.toNat = b := by rw [hcb]; exact toNat_ofNat_lt (by omega)
        have hrange : (65 ≤ b ∧ b ≤ 90) ∨ (97 ≤ b ∧ b ≤ 122) ∨ (48 ≤ b ∧ b ≤ 57) ∨
            b = 95 ∨ b = 46 ∨ b = 45 ∨ b = 126 ∨ b = 47 := by
          simp [alwaysSafeByte] at hs; tauto
        refine ⟨by simp [isAsciiChar]; omega, ?_, ?_, ?_, ?_, ?_, ?_, ?_⟩
        · intro he
          have hx := congrArg Char.toNat he
          rw [htn, (by decide : ('?' : Char).toNat = 63)] at hx; omega
        · intro he
          have hx := congrArg Char.toNat he
          rw [htn, (by decide : ('#' : Char).toNat = 35)] at hx; omega
        · intro he
          have hx := congrArg Char.toNat he
          rw [htn, (by decide : (';' : Char).toNat = 59)] at hx; omega
        · intro he
          have hx := congrArg Char.toNat he
          rw [htn, (by decide : (' ' : Char).toNat = 32)] at hx; omega
        · intro he
          have hx := congrArg Char.toNat he
          rw [htn, (by decide : ('[' : Char).toNat = 91)] at hx; omega
        · intro he
          have hx := congrArg Char.toNat he
          rw [htn, (by decide : (']' : Char).toNat = 93)] at hx; omega
        · intro he
          have hx := congrArg Char.toNat he
          rw [htn, (by decide : ('/' : Char).toNat = 47)] at hx
          rw [← hx]
          exact List.mem_cons_self b bs
      · rw [if_neg hs] at h
        have hd1 : b / 16 < 16 := by
          apply (Nat.div_lt_iff_lt_mul (by omega)).mpr; omega
        have hd2 : b % 16 < 16 := Nat.mod_lt _ (by omega)
        have hcases : c = '%' ∨ c = hexDigit (b / 16) ∨ c = hexDigit (b % 16) := by
          simp [List.mem_cons] at h; tauto
        have hkey : c.toNat = 37 ∨ (48 ≤ c.toNat ∧ c.toNat ≤ 57) ∨
            (65 ≤ c.toNat ∧ c.toNat ≤ 70) := by
          rcases hcases with rfl | rfl | rfl
          · left; decide
          · rw [hexDigit_toNat hd1]; split <;> omega
          · rw [hexDigit_toNat hd2]; split <;> omega
        refine ⟨by simp [isAsciiChar]; omega, ?_, ?_, ?_, ?_, ?_, ?_, ?_⟩
        · intro he; rw [he, (by decide : ('?' : Char).toNat = 63)] at hkey; omega
        · intro he; rw [he, (by decide : ('#' : Char).toNat = 35)] at hkey; omega
        · intro he; rw [he, (by decide : (';' : Char).toNat = 59)] at hkey; omega
        · intro he; rw [he, (by decide : (' ' : Char).toNat = 32)] at hkey; omega
        · intro he; rw [he, (by decide : ('[' : Char).toNat = 91)] at hkey; omega
        · intro he; rw [he, (by decide : (']' : Char).toNat = 93)] at hkey; omega
        · intro he
          rw [he, (by decide : ('/' : Char).toNat = 47)] at hkey
          exact absurd hkey (by decide)
    · have ih := quoteBytes_safe (fun b' hb' => hlt b' (List.mem_cons_of_mem _ hb')) h
      exact ⟨ih.1, ih.2.1, ih.2.2.1, ih.2.2.2.1, ih.2.2.2.2.1, ih.2.2.2.2.2.1,
        ih.2.2.2.2.2.2.1, fun he => List.mem_cons_of_mem _ (ih.2.2.2.2.2.2.2 he)⟩

theorem pyQuote_safe {s : Str} {c : Char} (h : c ∈ pyQuote s) :
    isAsciiChar c = true ∧ c ≠ '?' ∧ c ≠ '#' ∧ c ≠ ';' ∧ c ≠ ' ' ∧ c ≠ '[' ∧ c ≠ ']' ∧
      (c = '/' → '/' ∈ s) := by
  have hq := @quoteBytes_safe (utf8Encode s)
    (fun b hb => by
      obtain ⟨d, _, hbd⟩ := mem_utf8Encode hb
      exact utf8Bytes_lt256 d b hbd) c h
  refine ⟨hq.1, hq.2.1, hq.2.2.1, hq.2.2.2.1, hq.2.2.2.2.1, hq.2.2.2.2.2.1,
    hq.2.2.2.2.2.2.1, fun he => ?_⟩
  obtain ⟨d, hd, hbd⟩ := mem_utf8Encode (hq.2.2.2.2.2.2.2 he)
  rw [← utf8Bytes_mem_47 hbd]
  exact hd

theorem pyQuote_cons_slash (t : Str) : pyQuote ('/' :: t) = '/' :: pyQuote t := by
  show quoteBytes (utf8Bytes '/' ++ utf8Encode t) = '/' :: pyQuote t
  rw [(by decide : utf8Bytes '/' = [47])]
  show (if alwaysSafeByte 47 then [Char.ofNat 47]
    else ['%', hexDigit (47 / 16), hexDigit (47 % 16)]) ++ quoteBytes (utf8Encode t) =
    '/' :: pyQuote t
  rw [if_pos (by decide), (by decide : Char.ofNat 47 = '/')]
  rfl

theorem asciifyOther_ascii (p : Str) : strAscii (asciifyOther p) = true := by
  unfold asciifyOther
  split
  · assumption
  · simp only [strAscii, List.all_eq_true]
    exact fun c hc => (pyQuote_safe hc).1

theorem asciifyOther_no {p : Str} {c : Char}
    (hc : c = '?' ∨ c = '#' ∨ c = ';' ∨ c = ' ' ∨ c = '/') (h : c ∉ p) :
    c ∉ asciifyOther p := by
  unfold asciifyOther
  split
  · exact h
  · intro hm
    have hq := pyQuote_safe hm
    rcases hc with rfl | rfl | rfl | rfl | rfl
    · exact hq.2.1 rfl
    · exact hq.2.2.1 rfl
    · exact hq.2.2.2.1 rfl
    · exact hq.2.2.2.2.1 rfl
    · exact h (hq.2.2.2.2.2.2.2 rfl)

theorem asciifyOther_nil : asciifyOther [] = [] := by decide

theorem asciifyOther_take1 {p : Str} (h : p.take 1 = ['/']) :
    (asciifyOther p).take 1 = ['/'] := by
  obtain ⟨t, rfl⟩ : ∃ t, p = '/' :: t := by
    cases p with
    | nil => simp at h
    | cons a t =>
      simp [List.take] at h
      exact ⟨t, by rw [h]⟩
  unfold asciifyOther
  split
  · exact h
  · rw [pyQuote_cons_slash]; rfl

theorem asciifyOther_P1 {p : Str} (h : P1cond p) : P1cond (asciifyOther p) := by
  unfold asciifyOther
  split
  · exact h
  · exact P1cond_noSemi _ (fun hm => (pyQuote_safe hm).2.2.2.1 rfl)

/-- The four characters a netloc reaching the idna codec can never contain
(parse strips slash, question mark and hash; the space escape runs before). -/
def netBad (c : Char) : Bool := c = '/' ∨ c = '?' ∨ c = '#' ∨ c = ' '

theorem splitOnP_ne_nil (p : Char → Bool) : ∀ (x : Str), splitOnP p x ≠ []
  | [] => by simp [splitOnP]
  | c :: rest => by
    simp only [splitOnP]
    split
    · exact List.cons_ne_nil _ _
    · split <;> exact List.cons_ne_nil _ _

theorem mem_splitOnP {p : Char → Bool} : ∀ {x l : Str} {c : Char},
    l ∈ splitOnP p x → c ∈ l → c ∈ x
  | [], l, c, hl, hc => by
    simp [splitOnP] at hl
    subst hl
    exact absurd hc (List.not_mem_nil c)
  | a :: rest, l, c, hl, hc => by
    simp only [splitOnP] at hl
    split at hl
    · rcases List.mem_cons.mp hl with rfl | hl
      · exact absurd hc (List.not_mem_nil c)
      · exact List.mem_cons_of_mem _ (mem_splitOnP hl hc)
    · cases hm : splitOnP p rest with
      | nil =>
        rw [hm] at hl
        simp at hl
        subst hl
        rcases List.mem_singleton.mp hc with rfl
        exact List.mem_cons_self _ _
      | cons l0 ls =>
        rw [hm] at hl
        rcases List.mem_cons.mp hl with rfl | hl
        · rcases List.mem_cons.mp hc with rfl | hc
          · exact List.mem_cons_self _ _
          · exact List.mem_cons_of_mem _
              (mem_splitOnP (hm ▸ List.mem_cons_self l0 ls) hc)
        · exact List.mem_cons_of_mem _
            (mem_splitOnP (hm ▸ List.mem_cons_of_mem l0 hl) hc)

theorem mem_splitOnP_rev {p : Char → Bool} : ∀ {x : Str} {c : Char},
    c ∈ x → p c = false → ∃ l ∈ splitOnP p x, c ∈ l
  | a :: rest, c, hc, hp => by
    simp only [splitOnP]
    rcases List.mem_cons.mp hc with rfl | hc
    · rw [if_neg (by simp [hp])]
      cases hm : splitOnP p rest with
      | nil => exact ⟨[c], List.mem_cons_self _ _, List.mem_cons_self _ _⟩
      | cons l0 ls => exact ⟨c :: l0, List.mem_cons_self _ _, List.mem_cons_self _ _⟩
    · by_cases hpa : p a
      · rw [if_pos hpa]
        obtain ⟨l, hl, hcl⟩ := mem_splitOnP_rev hc hp
        exact ⟨l, List.mem_cons_of_mem _ hl, hcl⟩
      · rw [if_neg hpa]
        obtain ⟨l, hl, hcl⟩ := mem_splitOnP_rev hc hp
        cases hm : splitOnP p rest with
        | nil => exact absurd (hm ▸ hl) (List.not_mem_nil l)
        | cons l0 ls =>
          rw [hm] at hl
          rcases List.mem_cons.mp hl with rfl | hl2
          · exact ⟨a :: l, List.mem_cons_self _ _, List.mem_cons_of_mem _ hcl⟩
          · exact ⟨l, List.mem_cons_of_mem _ hl2, hcl⟩

theorem natDigits36_mem : ∀ (fuel n : Nat) {c : Char}, c ∈ natDigits36 fuel n →
    ∃ m, m < 36 ∧ c = d36 m
  | 0, _, c, h => absurd h (List.not_mem_nil c)
  | fuel + 1, n, c, h => by
    simp only [natDigits36] at h
    split at h
    · exact ⟨n, by assumption, List.mem_singleton.mp h⟩
    · rcases List.mem_append.mp h with h | h
      · exact natDigits36_mem fuel _ h
      · exact ⟨n % 36, Nat.mod_lt _ (by omega), List.mem_singleton.mp h⟩

theorem d36_safe : ∀ m, m < 36 → netBad (d36 m) = false ∧ isAsciiChar (d36 m) = true ∧
    d36 m ≠ '[' ∧ d36 m ≠ ']' := by decide

theorem toLower_toNat (c : Char) :
    c.toLower.toNat = if c.toNat ≥ 65 ∧ c.toNat ≤ 90 then c.toNat + 32 else c.toNat := by
  simp only [Char.toLower]
  split
  · exact toNat_ofNat_lt (by omega)
  · rfl

theorem toLower_eq_safe {c x : Char} (hx : ¬(97 ≤ x.toNat ∧ x.toNat ≤ 122))
    (h : c.toLower = x) : c = x := by
  have ht := congrArg Char.toNat h
  rw [toLower_toNat] at ht
  split at ht
  · exact absurd (show 97 ≤ x.toNat ∧ x.toNat ≤ 122 by omega) hx
  · exact char_toNat_inj ht

theorem toLower_ascii {c : Char} (h : isAsciiChar c = true) : isAsciiChar c.toLower = true := by
  simp only [isAsciiChar, decide_eq_true_eq] at h ⊢
  rw [toLower_toNat]
  split <;> omega

theorem mem_foldr_append {f : Char → Str} : ∀ {l : Str} {c : Char},
    c ∈ l.foldr (fun a acc => f a ++ acc) [] → ∃ a ∈ l, c ∈ f a
  | [], c, h => absurd h (List.not_mem_nil c)
  | a :: l, c, h => by
    rw [List.foldr_cons] at h
    rcases List.mem_append.mp h with h | h
    · exact ⟨a, List.mem_cons_self a l, h⟩
    · obtain ⟨b, hb, hcb⟩ := mem_foldr_append h
      exact ⟨b, List.mem_cons_of_mem _ hb, hcb⟩

theorem foldr_append_mem {f : Char → Str} : ∀ {l : Str} {a c : Char},
    a ∈ l → c ∈ f a → c ∈ l.foldr (fun a acc => f a ++ acc) []
  | b :: l, a, c, ha, hc => by
    rw [List.foldr_cons]
    rcases List.mem_cons.mp ha with rfl | ha
    · exact List.mem_append.mpr (Or.inl hc)
    · exact List.mem_append.mpr (Or.inr (foldr_append_mem ha hc))

theorem toASCII_safe {lab o : Str} (h : toASCIIModel lab = some o)
    (hin : ∀ c ∈ lab, netBad c = false) :
    ∀ c ∈ o, netBad c = false ∧ isAsciiChar c = true := by
  intro c hc
  simp only [toASCIIModel] at h
  split at h
  · rename_i hascii
    split at h
    · injection h with h
      subst h
      refine ⟨hin c hc, ?_⟩
      simp only [strAscii, List.all_eq_true] at hascii
      exact hascii c hc
    · exact Option.noConfusion h
  · split at h
    · injection h with h
      subst h
      rcases List.mem_append.mp hc with hc | hc
      · simp at hc
        rcases hc with rfl | rfl | rfl
        · exact ⟨by decide, by decide⟩
        · exact ⟨by decide, by decide⟩
        · exact ⟨by decide, by decide⟩
      · obtain ⟨a, ha, hcf⟩ := mem_foldr_append hc
        by_cases hA : isAsciiChar a
        · rw [if_pos hA] at hcf
          have hceq : c = a.toLower := List.mem_singleton.mp hcf
          have hna := hin a ha
          refine ⟨?_, hceq ▸ toLower_ascii hA⟩
          cases hnb : netBad c
          · rfl
          · exfalso
            simp [netBad] at hnb
            rcases hnb with rfl | rfl | rfl | rfl <;>
            · have heq := toLower_eq_safe (by decide) hceq.symm
              rw [heq] at hna
              exact absurd hna (by decide)
        · rw [if_neg hA] at hcf
          obtain ⟨m, hm, rfl⟩ := natDigits36_mem 8 _ hcf
          exact ⟨(d36_safe m hm).1, (d36_safe m hm).2.1⟩
    · exact Option.noConfusion h

theorem toASCII_brk {lab o : Str} (h : toASCIIModel lab = some o) {br : Char}
    (hbr : br = '[' ∨ br = ']') : (br ∈ o ↔ br ∈ lab) := by
  simp only [toASCIIModel] at h
  split at h
  · split at h
    · injection h with h
      subst h
      exact Iff.rfl
    · exact Option.noConfusion h
  · split at h
    · injection h with h
      subst h
      constructor
      · intro hc
        rcases List.mem_append.mp hc with hc | hc
        · exfalso
          rcases hbr with rfl | rfl <;> revert hc <;> decide
        · obtain ⟨a, ha, hcf⟩ := mem_foldr_append hc
          by_cases hA : isAsciiChar a
          · rw [if_pos hA] at hcf
            have hceq : br = a.toLower := List.mem_singleton.mp hcf
            have heq : a = br := by
              rcases hbr with rfl | rfl <;> exact toLower_eq_safe (by decide) hceq.symm
            exact heq ▸ ha
          · rw [if_neg hA] at hcf
            obtain ⟨m, hm, hbr36⟩ := natDigits36_mem 8 _ hcf
            exfalso
            rcases hbr with rfl | rfl
            · exact (d36_safe m hm).2.2.1 hbr36.symm
            · exact (d36_safe m hm).2.2.2 hbr36.symm
      · intro hc
        refine List.mem_append.mpr (Or.inr (foldr_append_mem hc ?_))
        have hA : isAsciiChar br = true := by rcases hbr with rfl | rfl <;> decide
        rw [if_pos hA]
        have : br.toLower = br := by rcases hbr with rfl | rfl <;> decide
        rw [this]
        exact List.mem_singleton.mpr rfl
    · exact Option.noConfusion h

theorem mapM_mem {f : Str → Option Str} : ∀ {labs outs : List Str},
    labs.mapM f = some outs → ∀ o ∈ outs, ∃ l ∈ labs, f l = some o
  | [], outs, h => by
    rw [List.mapM_nil] at h
    have h2 : some ([] : List Str) = some outs := h
    injection h2 with h2
    subst h2
    exact fun o ho => absurd ho (List.not_mem_nil o)
  | l :: labs, outs, h => by
    rw [List.mapM_cons] at h
    cases hf : f l with
    | none => rw [hf] at h; simp at h
    | some b =>
      rw [hf] at h
      cases hm : labs.mapM f with
      | none => rw [hm] at h; simp at h
      | some bs =>
        rw [hm] at h
        simp at h
        subst h
        intro o ho
        rcases List.mem_cons.mp ho with rfl | ho
        · exact ⟨l, List.mem_cons_self _ _, hf⟩
        · obtain ⟨l', hl', hfl'⟩ := mapM_mem hm o ho
          exact ⟨l', List.mem_cons_of_mem _ hl', hfl'⟩

theorem mapM_mem_rev {f : Str → Option Str} : ∀ {labs outs : List Str},
    labs.mapM f = some outs → ∀ l ∈ labs, ∃ o ∈ outs, f l = some o
  | [], _, _, l, hl => absurd hl (List.not_mem_nil l)
  | l0 :: labs, outs, h, l, hl => by
    rw [List.mapM_cons] at h
    cases hf : f l0 with
    | none => rw [hf] at h; simp at h
    | some b =>
      rw [hf] at h
      cases hm : labs.mapM f with
      | none => rw [hm] at h; simp at h
      | some bs =>
        rw [hm] at h
        simp at h
        subst h
        rcases List.mem_cons.mp hl with rfl | hl
        · exact ⟨b, List.mem_cons_self _ _, hf⟩
        · obtain ⟨o', ho', hfo'⟩ := mapM_mem_rev hm l hl
          exact ⟨o', List.mem_cons_of_mem _ ho', hfo'⟩

theorem mem_joinDots : ∀ {ls : List Str} {c : Char}, c ∈ joinDots ls →
    c = '.' ∨ ∃ l ∈ ls, c ∈ l
  | [], c, h => absurd h (List.not_mem_nil c)
  | [l], _, h => Or.inr ⟨l, List.mem_cons_self l [], h⟩
  | l :: l2 :: ls, c, h => by
    have h' : c ∈ l ++ '.' :: joinDots (l2 :: ls) := h
    rcases List.mem_append.mp h' with h2 | h2
    · exact Or.inr ⟨l, List.mem_cons_self _ _, h2⟩
    · rcases List.mem_cons.mp h2 with rfl | h2
      · exact Or.inl rfl
      · rcases mem_joinDots h2 with h3 | ⟨l', hl', hcl'⟩
        · exact Or.inl h3
        · exact Or.inr ⟨l', List.mem_cons_of_mem _ hl', hcl'⟩

theorem joinDots_mem_rev : ∀ {ls : List Str} {l : Str} {c : Char},
    l ∈ ls → c ∈ l → c ∈ joinDots ls
  | [l0], l, c, hl, hc => by
    rcases List.mem_singleton.mp hl with rfl
    exact hc
  | l0 :: l2 :: ls, l, c, hl, hc => by
    show c ∈ l0 ++ '.' :: joinDots (l2 :: ls)
    rcases List.mem_cons.mp hl with rfl | hl
    · exact List.mem_append.mpr (Or.inl hc)
    · exact List.mem_append.mpr
        (Or.inr (List.mem_cons_of_mem _ (joinDots_mem_rev hl hc)))

theorem idnaModel_parts {x o : Str} (h : idnaModel x = some o) (hne : x.isEmpty = false) :
    ∃ labs ls tail,
      ((labs = splitOnP dotChar x ∧ tail = ([] : Str)) ∨
        (labs = (splitOnP dotChar x).dropLast ∧
          (splitOnP dotChar x).getLast? = some [] ∧ tail = ['.'])) ∧
      labs.mapM toASCIIModel = some ls ∧ o = joinDots ls ++ tail := by
  simp only [idnaModel] at h
  rw [if_neg (by simp [hne])] at h
  split at h
  · rename_i heq
    rcases Option.map_eq_some'.mp h with ⟨ls, hm, ho⟩
    exact ⟨_, ls, ['.'], Or.inr ⟨rfl, heq, rfl⟩, hm, ho.symm⟩
  · rcases Option.map_eq_some'.mp h with ⟨ls, hm, ho⟩
    exact ⟨_, ls, [], Or.inl ⟨rfl, rfl⟩, hm, ho.symm⟩

theorem idnaModel_safe {x o : Str} (h : idnaModel x = some o)
    (hin : ∀ c ∈ x, netBad c = false) :
    ∀ c ∈ o, netBad c = false ∧ isAsciiChar c = true := by
  intro c hc
  cases hne : x.isEmpty with
  | true =>
    unfold idnaModel at h
    rw [if_pos hne] at h
    injection h with h
    subst h
    exact absurd hc (List.not_mem_nil c)
  | false =>
    obtain ⟨labs, ls, tail, hcase, hm, ho⟩ := idnaModel_parts h hne
    subst ho
    have hlabs_sub : ∀ l ∈ labs, l ∈ splitOnP dotChar x := by
      rcases hcase with ⟨h2, _⟩ | ⟨h2, _, _⟩
      · intro l hl; rw [← h2]; exact hl
      · intro l hl; exact List.dropLast_subset _ (h2 ▸ hl)
    rcases List.mem_append.mp hc with hc | hc
    · rcases mem_joinDots hc with rfl | ⟨l', hl', hcl'⟩
      · exact ⟨by decide, by decide⟩
      · obtain ⟨lab, hlab, htoa⟩ := mapM_mem hm l' hl'
        exact toASCII_safe htoa
          (fun d hd => hin d (mem_splitOnP (hlabs_sub lab hlab) hd)) c hcl'
    · rcases hcase with ⟨_, h2⟩ | ⟨_, _, h2⟩
      · exact absurd (h2 ▸ hc) (List.not_mem_nil c)
      · rcases List.mem_singleton.mp (h2 ▸ hc) with rfl
        exact ⟨by decide, by decide⟩

theorem idnaModel_brk {x o : Str} (h : idnaModel x = some o) {br : Char}
    (hbr : br = '[' ∨ br = ']') : (br ∈ o ↔ br ∈ x) := by
  cases hne : x.isEmpty with
  | true =>
    unfold idnaModel at h
    rw [if_pos hne] at h
    injection h with h
    subst h
    rw [List.isEmpty_iff.mp hne]
  | false =>
    obtain ⟨labs, ls, tail, hcase, hm, ho⟩ := idnaModel_parts h hne
    subst ho
    have hdot : dotChar br = false := by rcases hbr with rfl | rfl <;> decide
    have hbrdot : br ≠ '.' := by rcases hbr with rfl | rfl <;> decide
    constructor
    · intro hc
      rcases List.mem_append.mp hc with hc | hc
      · rcases mem_joinDots hc with h1 | ⟨l', hl', hcl'⟩
        · exact absurd h1 hbrdot
        · obtain ⟨lab, hlab, htoa⟩ := mapM_mem hm l' hl'
          have hsub : lab ∈ splitOnP dotChar x := by
            rcases hcase with ⟨h2, _⟩ | ⟨h2, _, _⟩
            · rw [← h2]; exact hlab
            · exact List.dropLast_subset _ (h2 ▸ hlab)
          exact mem_splitOnP hsub ((toASCII_brk htoa hbr).mp hcl')
      · rcases hcase with ⟨_, h2⟩ | ⟨_, _, h2⟩
        · exact absurd (h2 ▸ hc) (List.not_mem_nil br)
        · exact absurd (List.mem_singleton.mp (h2 ▸ hc)) hbrdot
    · intro hc
      obtain ⟨l, hl, hbl⟩ := mem_splitOnP_rev hc hdot
      have hlne : l ≠ [] := fun he => absurd (he ▸ hbl) (List.not_mem_nil br)
      have hlabs : l ∈ labs := by
        rcases hcase with ⟨h2, _⟩ | ⟨h2, hlast, _⟩
        · rw [h2]; exact hl
        · have hne2 : splitOnP dotChar x ≠ [] := splitOnP_ne_nil _ _
          have hsplit := List.dropLast_append_getLast hne2
          rw [List.getLast?_eq_getLast _ hne2] at hlast
          injection hlast with hlast
          rw [← hsplit] at hl
          rcases List.mem_append.mp hl with h3 | h3
          · rw [h2]; exact h3
          · exact absurd (hlast ▸ List.mem_singleton.mp h3) hlne
      obtain ⟨o', ho', htoa⟩ := mapM_mem_rev hm l hlabs
      exact List.mem_append.mpr (Or.inl
        (joinDots_mem_rev ho' ((toASCII_brk htoa hbr).mpr hbl)))

theorem paramSplit_fst_sub (x : Str) : ∀ c ∈ (paramSplit x).1, c ∈ x := by
  intro c hc
  unfold paramSplit at hc
  split at hc
  · simp only [splitparamsModel] at hc
    split at hc
    · split at hc
      · rcases List.mem_append.mp hc with h | h
        · exact List.take_subset _ _ h
        · exact afterLastSlash_sub x c (mem_takeWhile_mem h)
      · exact hc
    · exact cutAt_fst_sub ';' x c hc
  · exact hc

theorem paramSplit_snd_sub (x : Str) : ∀ c ∈ (paramSplit x).2, c ∈ x := by
  intro c hc
  unfold paramSplit at hc
  split at hc
  · simp only [splitparamsModel] at hc
    split at hc
    · split at hc
      · exact afterLastSlash_sub x c (List.drop_subset _ _ hc)
      · exact absurd hc (List.not_mem_nil c)
    · exact cutAt_snd_sub ';' x c hc
  · exact absurd hc (List.not_mem_nil c)

theorem paramSplit_slash_head {x : Str} (h : x.take 1 = ['/']) :
    (paramSplit x).1.take 1 = ['/'] := by
  obtain ⟨y, rfl⟩ : ∃ y, x = '/' :: y := by
    cases x with
    | nil => simp at h
    | cons a t =>
      simp [List.take] at h
      exact ⟨t, by rw [h]⟩
  unfold paramSplit
  split
  · simp only [splitparamsModel]
    have hsl : '/' ∈ '/' :: y := List.mem_cons_self _ _
    rw [if_pos hsl]
    split
    · have hlen : (afterLastSlash ('/' :: y)).length < ('/' :: y).length := by
        obtain ⟨F1, hx⟩ := slash_decomp _ hsl
        conv_rhs => rw [hx]
        simp [List.length_append]
        omega
      obtain ⟨m, hm⟩ : ∃ m, ('/' :: y).length - (afterLastSlash ('/' :: y)).length = m + 1 :=
        ⟨('/' :: y).length - (afterLastSlash ('/' :: y)).length - 1, by omega⟩
      rw [hm, List.take_succ_cons]
      rfl
    · exact h
  · exact h

theorem netlocSplit_snd_sub (rest : Str) : ∀ c ∈ (netlocSplit rest).2, c ∈ rest := by
  intro c hc
  unfold netlocSplit at hc
  split at hc
  · exact List.drop_subset _ _ hc
  · exact hc

theorem drop_takeWhile_length (p : Char → Bool) (l : Str) :
    l.drop (l.takeWhile p).length = l.dropWhile p := by
  have h := List.takeWhile_append_dropWhile (p := p) (l := l)
  calc l.drop (l.takeWhile p).length
      = (l.takeWhile p ++ l.dropWhile p).drop (l.takeWhile p).length := by rw [h]
    _ = l.dropWhile p := List.drop_left _ _

theorem pq_head (z : Str)
    (hz : z = [] ∨ (∃ t, z = '/' :: t) ∨ (∃ t, z = '?' :: t) ∨ (∃ t, z = '#' :: t)) :
    (cutAt '?' (cutAt '#' z).1).1 = [] ∨ ((cutAt '?' (cutAt '#' z).1).1).take 1 = ['/'] := by
  rcases hz with rfl | ⟨t, rfl⟩ | ⟨t, rfl⟩ | ⟨t, rfl⟩
  · left; rfl
  · right; rfl
  · left; rfl
  · left; rfl

theorem splitAfterScheme_facts {sch rest sch2 nl p q f : Str}
    (h : splitAfterScheme sch rest = some (sch2, nl, p, q, f)) :
    sch2 = sch ∧
    (∀ c ∈ nl, c ∈ rest ∧ notDelim c = true) ∧
    ('[' ∈ nl ↔ ']' ∈ nl) ∧
    (∀ c ∈ p, c ∈ rest ∧ c ≠ '#' ∧ c ≠ '?') ∧
    (∀ c ∈ q, c ∈ rest ∧ c ≠ '#') ∧
    (∀ c ∈ f, c ∈ rest) ∧
    (nl ≠ [] → p = [] ∨ p.take 1 = ['/']) := by
  simp only [splitAfterScheme] at h
  split at h
  · exact Option.noConfusion h
  · rename_i hguard
    injection h with h
    rw [Prod.mk.injEq, Prod.mk.injEq, Prod.mk.injEq, Prod.mk.injEq] at h
    obtain ⟨h1, h2, h3, h4, h5⟩ := h
    subst h1; subst h2; subst h3; subst h4; subst h5
    have hnl2 : ∀ c ∈ (netlocSplit rest).2, c ∈ rest := netlocSplit_snd_sub rest
    refine ⟨rfl, ?_, ?_, ?_, ?_, ?_, ?_⟩
    · intro c hc
      unfold netlocSplit at hc
      split at hc
      · exact ⟨List.drop_subset _ _ (mem_takeWhile_mem hc), List.mem_takeWhile_imp hc⟩
      · exact absurd hc (List.not_mem_nil c)
    · constructor
      · intro hbl
        by_cases hbr : ']' ∈ (netlocSplit rest).1
        · exact hbr
        · exact absurd (Or.inl ⟨hbl, hbr⟩) hguard
      · intro hbr
        by_cases hbl : '[' ∈ (netlocSplit rest).1
        · exact hbl
        · exact absurd (Or.inr ⟨hbr, hbl⟩) hguard
    · intro c hc
      have hb1 : c ∈ (cutAt '#' (netlocSplit rest).2).1 := cutAt_fst_sub '?' _ c hc
      refine ⟨hnl2 c (cutAt_fst_sub '#' _ c hb1), ?_, ?_⟩
      · intro he; rw [he] at hb1; exact cutAt_fst_free '#' _ hb1
      · intro he; rw [he] at hc; exact cutAt_fst_free '?' _ hc
    · intro c hc
      have hb1 : c ∈ (cutAt '#' (netlocSplit rest).2).1 := cutAt_snd_sub '?' _ c hc
      refine ⟨hnl2 c (cutAt_fst_sub '#' _ c hb1), ?_⟩
      intro he; rw [he] at hb1; exact cutAt_fst_free '#' _ hb1
    · intro c hc
      exact hnl2 c (cutAt_snd_sub '#' _ c hc)
    · intro hne
      by_cases hTT : rest.take 2 = ['/', '/']
      · have hNL : (netlocSplit rest).2 =
            (rest.drop 2).dropWhile notDelim := by
          unfold netlocSplit
          rw [if_pos hTT]
          show rest.drop (2 + ((rest.drop 2).takeWhile notDelim).length) =
            (rest.drop 2).dropWhile notDelim
          rw [← List.drop_drop, drop_takeWhile_length]
        rw [hNL]
        apply pq_head
        cases hdw : (rest.drop 2).dropWhile notDelim with
        | nil => exact Or.inl rfl
        | cons c t =>
          have hc := dropWhile_head hdw
          have : c = '/' ∨ c = '?' ∨ c = '#' := by
            simp [notDelim] at hc
            tauto
          rcases this with rfl | rfl | rfl
          · exact Or.inr (Or.inl ⟨t, rfl⟩)
          · exact Or.inr (Or.inr (Or.inl ⟨t, rfl⟩))
          · exact Or.inr (Or.inr (Or.inr ⟨t, rfl⟩))
      · exfalso
        apply hne
        unfold netlocSplit
        rw [if_neg hTT]

theorem urlparseModel_facts {url : Str} {P : UrlParts} (h : urlparseModel url = some P) :
    (∀ c ∈ P.netloc, c ∈ url ∧ notDelim c = true) ∧
    ('[' ∈ P.netloc ↔ ']' ∈ P.netloc) ∧
    (∀ c ∈ P.path, c ∈ url ∧ c ≠ '#' ∧ c ≠ '?') ∧
    (∀ c ∈ P.params, c ∈ url ∧ c ≠ '#' ∧ c ≠ '?') ∧
    '/' ∉ P.params ∧
    (∀ c ∈ P.query, c ∈ url ∧ c ≠ '#') ∧
    (∀ c ∈ P.fragment, c ∈ url) ∧
    (P.netloc ≠ [] → (P.path = [] ∧ P.params = []) ∨ P.path.take 1 = ['/']) ∧
    P1cond P.path := by
  unfold urlparseModel at h
  rcases Option.map_eq_some'.mp h with ⟨t, hsplit, hP⟩
  obtain ⟨sch2, nl, p, q, f2⟩ := t
  subst hP
  have hex : ∃ sch rest, (∀ c ∈ rest, c ∈ url) ∧
      splitAfterScheme sch rest = some (sch2, nl, p, q, f2) := by
    simp only [urlsplitModel] at hsplit
    split at hsplit
    · exact ⟨_, _, fun c hc => List.drop_subset _ _ hc, hsplit⟩
    · exact ⟨_, _, fun c hc => hc, hsplit⟩
  obtain ⟨sch, rest, hsub, hsas⟩ := hex
  obtain ⟨-, Fnl, Fbrk, Fp, Fq, Ff, Fnp⟩ := splitAfterScheme_facts hsas
  refine ⟨?_, ?_, ?_, ?_, ?_, ?_, ?_, ?_, ?_⟩
  · exact fun c hc => ⟨hsub c (Fnl c hc).1, (Fnl c hc).2⟩
  · exact Fbrk
  · intro c hc
    have hf := Fp c (paramSplit_fst_sub p c hc)
    exact ⟨hsub c hf.1, hf.2.1, hf.2.2⟩
  · intro c hc
    have hf := Fp c (paramSplit_snd_sub p c hc)
    exact ⟨hsub c hf.1, hf.2.1, hf.2.2⟩
  · exact paramSplit_no_slash p
  · exact fun c hc => ⟨hsub c (Fq c hc).1, (Fq c hc).2⟩
  · exact fun c hc => hsub c (Ff c hc)
  · intro hne
    rcases Fnp hne with hp | hp
    · subst hp
      exact Or.inl ⟨rfl, rfl⟩
    · exact Or.inr (paramSplit_slash_head hp)
  · exact paramSplit_P1 p

theorem parse_scheme {S r : Str} {P : UrlParts} (hfree : ':' ∉ S) (hne : S ≠ [])
    (hall : S.all schemeChar = true) (h : urlparseModel (S ++ ':' :: r) = some P) :
    P.scheme = strLower S := by
  have htw : (S ++ ':' :: r).takeWhile (· ≠ ':') = S :=
    takeWhile_stop S ':' r (fun c hc => decide_eq_true (fun he => hfree (he ▸ hc))) (by decide)
  have hlen : S.length < (S ++ ':' :: r).length := by
    rw [List.length_append, List.length_cons]
    omega
  unfold urlparseModel at h
  rcases Option.map_eq_some'.mp h with ⟨t, hsplit, hP⟩
  unfold urlsplitModel at hsplit
  rw [htw] at hsplit
  rw [if_pos ⟨hlen, List.length_pos.mpr hne, hall⟩] at hsplit
  obtain ⟨sch2, nl, p, q, f2⟩ := t
  have hs2 := (splitAfterScheme_facts hsplit).1
  subst hP
  show sch2 = strLower S
  exact hs2

theorem take2_append_ne (A T : Str) (hA : A.take 2 ≠ ['/', '/'])
    (hT : ∀ c t, T = c :: t → c = '?' ∨ c = '#') : (A ++ T).take 2 ≠ ['/', '/'] := by
  match A with
  | [] =>
    rw [List.nil_append]
    cases hTc : T with
    | nil => simp
    | cons c t =>
      intro he
      rw [show (c :: t).take 2 = c :: t.take 1 from rfl] at he
      injection he with h1 _
      rcases hT c t hTc with rfl | rfl <;> exact absurd h1 (by decide)
  | [a] =>
    cases hTc : T with
    | nil => simp
    | cons c t =>
      intro he
      rw [show (([a] ++ c :: t)).take 2 = [a, c] from rfl] at he
      injection he with _ h2
      injection h2 with h2 _
      rcases hT c t hTc with rfl | rfl <;> exact absurd h2 (by decide)
  | a :: b :: A' =>
    intro he
    exact hA he

theorem qf_head (query fragment : Str) : ∀ c t,
    (if ¬ query.isEmpty then '?' :: query else []) ++
      (if ¬ fragment.isEmpty then '#' :: fragment else []) = c :: t →
    c = '?' ∨ c = '#' := by
  intro c t hct
  by_cases hqe : query.isEmpty
  · rw [if_neg (not_not_intro hqe), List.nil_append] at hct
    by_cases hfe : fragment.isEmpty
    · rw [if_neg (not_not_intro hfe)] at hct
      exact List.noConfusion hct
    · rw [if_pos hfe] at hct
      injection hct with h1 _
      exact Or.inr h1.symm
  · rw [if_pos hqe, List.cons_append] at hct
    injection hct with h1 _
    exact Or.inl h1.symm

theorem qf_cut (u query fragment : Str) (hu7 : '?' ∉ u) (hu3 : '#' ∉ u) (hq : '#' ∉ query) :
    cutAt '#' (u ++ ((if ¬ query.isEmpty then '?' :: query else []) ++
        (if ¬ fragment.isEmpty then '#' :: fragment else []))) =
      (u ++ (if ¬ query.isEmpty then '?' :: query else []), fragment) ∧
    cutAt '?' (u ++ (if ¬ query.isEmpty then '?' :: query else [])) = (u, query) := by
  have hA : '#' ∉ u ++ (if ¬ query.isEmpty then '?' :: query else []) := by
    intro hm
    rcases List.mem_append.mp hm with hm | hm
    · exact hu3 hm
    · by_cases hqe : query.isEmpty
      · rw [if_neg (not_not_intro hqe)] at hm
        exact List.not_mem_nil _ hm
      · rw [if_pos hqe] at hm
        rcases List.mem_cons.mp hm with he | hm
        · exact absurd he (by decide)
        · exact hq hm
  constructor
  · by_cases hfe : fragment.isEmpty
    · rw [if_neg (not_not_intro hfe), List.append_nil, List.isEmpty_iff.mp hfe]
      exact cutAt_none '#' _ hA
    · rw [if_pos hfe, ← List.append_assoc]
      exact cutAt_mk '#' _ fragment hA
  · by_cases hqe : query.isEmpty
    · rw [if_neg (not_not_intro hqe), List.append_nil, List.isEmpty_iff.mp hqe]
      exact cutAt_none '?' _ hu7
    · rw [if_pos hqe]
      exact cutAt_mk '?' _ query hu7

theorem urlsplit_scheme_prefix (scheme R : Str)
    (hsch : scheme = "http".toList ∨ scheme = "https".toList) :
    urlsplitModel (scheme ++ ':' :: R) = splitAfterScheme scheme R := by
  have hfree : ':' ∉ scheme := by rcases hsch with rfl | rfl <;> decide
  have hne : scheme ≠ [] := by rcases hsch with rfl | rfl <;> decide
  have hall : scheme.all schemeChar = true := by rcases hsch with rfl | rfl <;> decide
  have hlow : strLower scheme = scheme := by rcases hsch with rfl | rfl <;> decide
  have htw : (scheme ++ ':' :: R).takeWhile (· ≠ ':') = scheme :=
    takeWhile_stop scheme ':' R (fun c hc => decide_eq_true (fun he => hfree (he ▸ hc)))
      (by decide)
  have hlen : scheme.length < (scheme ++ ':' :: R).length := by
    rw [List.length_append, List.length_cons]
    omega
  simp only [urlsplitModel]
  rw [htw, if_pos ⟨hlen, List.length_pos.mpr hne, hall⟩, hlow, drop_after]

theorem unsplit_split {scheme netloc url query fragment : Str}
    (hsch : scheme = "http".toList ∨ scheme = "https".toList)
    (hnd : ∀ c ∈ netloc, notDelim c = true)
    (hbrk : '[' ∈ netloc ↔ ']' ∈ netloc)
    (hu7 : '?' ∉ url) (hu3 : '#' ∉ url)
    (hq : '#' ∉ query)
    (hnp : netloc ≠ [] → url = [] ∨ url.take 1 = ['/']) :
    urlsplitModel (urlunsplitModel scheme netloc url query fragment) =
      some (scheme, netloc, url, query, fragment) := by
  have hschne : ¬ scheme.isEmpty := by rcases hsch with rfl | rfl <;> decide
  have hguard : ¬(('[' ∈ netloc ∧ ¬ ']' ∈ netloc) ∨ (']' ∈ netloc ∧ ¬ '[' ∈ netloc)) := by
    tauto
  by_cases hC1 : ¬ netloc.isEmpty ∨ (¬ url.isEmpty ∧ url.take 2 = ['/', '/'])
  · have hC2 : ¬(¬ url.isEmpty ∧ ¬ url.take 1 = ['/']) := by
      rintro ⟨hue, ht1⟩
      rcases hC1 with hn | ⟨_, ht2⟩
      · rcases hnp (fun he => hn (by rw [he]; rfl)) with he | h1
        · exact hue (by rw [he]; rfl)
        · exact ht1 h1
      · apply ht1
        have h12 : url.take 1 = (url.take 2).take 1 := by
          simp [List.take_take]
        rw [h12, ht2]
        rfl
    have hshape : url = [] ∨ ∃ u', url = '/' :: u' := by
      by_cases hue : url.isEmpty
      · exact Or.inl (List.isEmpty_iff.mp hue)
      · right
        have ht1 : url.take 1 = ['/'] := by
          by_cases h1 : url.take 1 = ['/']
          · exact h1
          · exact absurd ⟨hue, h1⟩ hC2
        cases url with
        | nil => simp at ht1
        | cons a t =>
          rw [show (a :: t).take 1 = [a] from rfl] at ht1
          injection ht1 with h1 _
          exact ⟨t, by rw [h1]⟩
    have hun : urlunsplitModel scheme netloc url query fragment =
        scheme ++ ':' :: ('/' :: '/' :: (netloc ++ (url ++
          ((if ¬ query.isEmpty then '?' :: query else []) ++
            (if ¬ fragment.isEmpty then '#' :: fragment else []))))) := by
      simp only [urlunsplitModel]
      rw [if_pos hC1, if_neg hC2, if_pos hschne]
      by_cases hqe : query.isEmpty <;> by_cases hfe : fragment.isEmpty <;>
        simp [hqe, hfe, List.append_assoc, List.cons_append]
    rw [hun, urlsplit_scheme_prefix _ _ hsch]
    set X := (if ¬ query.isEmpty then '?' :: query else []) ++
      (if ¬ fragment.isEmpty then '#' :: fragment else []) with hXeq
    have hTW : (netloc ++ (url ++ X)).takeWhile notDelim = netloc := by
      cases hX : url ++ X with
      | nil =>
        rw [List.append_nil]
        exact takeWhile_all_sat hnd
      | cons c t =>
        refine takeWhile_stop _ _ _ hnd ?_
        have hhead : c = '/' ∨ c = '?' ∨ c = '#' := by
          rcases hshape with rfl | ⟨u', rfl⟩
          · rw [List.nil_append] at hX
            exact Or.inr (qf_head query fragment c t (hXeq ▸ hX))
          · rw [List.cons_append] at hX
            injection hX with h1 _
            exact Or.inl h1.symm
        rcases hhead with rfl | rfl | rfl <;> decide
    have hd2 : ('/' :: '/' :: (netloc ++ (url ++ X))).drop 2 = netloc ++ (url ++ X) := rfl
    have hnls : netlocSplit ('/' :: '/' :: (netloc ++ (url ++ X))) = (netloc, url ++ X) := by
      simp only [netlocSplit]
      rw [if_pos (show ('/' :: '/' :: (netloc ++ (url ++ X))).take 2 = ['/', '/'] from rfl),
        hd2, hTW]
      refine congrArg (Prod.mk netloc) ?_
      rw [← List.drop_drop, hd2]
      exact List.drop_left _ _
    obtain ⟨hcut1, hcut2⟩ := qf_cut url query fragment hu7 hu3 hq
    rw [← hXeq] at hcut1
    simp only [splitAfterScheme, hnls, hcut1, hcut2]
    rw [if_neg hguard]
  · have hnE : netloc = [] := by
      by_cases h : netloc.isEmpty
      · exact List.isEmpty_iff.mp h
      · exact absurd (Or.inl h) hC1
    have hA2 : ¬(¬ url.isEmpty ∧ url.take 2 = ['/', '/']) := fun hx => hC1 (Or.inr hx)
    have hA : url.take 2 ≠ ['/', '/'] := by
      intro he
      by_cases hue : url.isEmpty
      · rw [List.isEmpty_iff.mp hue] at he
        exact List.noConfusion he
      · exact hA2 ⟨hue, he⟩
    subst hnE
    have hun : urlunsplitModel scheme [] url query fragment =
        scheme ++ ':' :: (url ++
          ((if ¬ query.isEmpty then '?' :: query else []) ++
            (if ¬ fragment.isEmpty then '#' :: fragment else []))) := by
      simp only [urlunsplitModel]
      rw [if_neg hC1, if_pos hschne]
      by_cases hqe : query.isEmpty <;> by_cases hfe : fragment.isEmpty <;>
        simp [hqe, hfe, List.append_assoc, List.cons_append]
    rw [hun, urlsplit_scheme_prefix _ _ hsch]
    set X := (if ¬ query.isEmpty then '?' :: query else []) ++
      (if ¬ fragment.isEmpty then '#' :: fragment else []) with hXeq
    have hnls : netlocSplit (url ++ X) = ([], url ++ X) := by
      simp only [netlocSplit]
      rw [if_neg (take2_append_ne url X hA (fun c t hct => qf_head query fragment c t
        (hXeq ▸ hct)))]
    obtain ⟨hcut1, hcut2⟩ := qf_cut url query fragment hu7 hu3 hq
    rw [← hXeq] at hcut1
    simp only [splitAfterScheme, hnls, hcut1, hcut2]
    rw [if_neg (by simp)]

/-- The invariant sanitize_url establishes on the parts it re-joins: a known
lower-case scheme, ASCII space-free components, parse-clean separators, and the
netloc/path shape urlunparse relies on. -/
structure SanInv (P : UrlParts) : Prop where
  scheme_ok : P.scheme = "http".toList ∨ P.scheme = "https".toList
  netloc_ascii : strAscii P.netloc = true
  path_ascii : strAscii P.path = true
  params_ascii : strAscii P.params = true
  query_ascii : strAscii P.query = true
  frag_ascii : strAscii P.fragment = true
  no_space : ' ' ∉ P.netloc ∧ ' ' ∉ P.path ∧ ' ' ∉ P.params ∧ ' ' ∉ P.query ∧
    ' ' ∉ P.fragment
  netloc_delim : ∀ c ∈ P.netloc, notDelim c = true
  netloc_brk : '[' ∈ P.netloc ↔ ']' ∈ P.netloc
  path_clean : '?' ∉ P.path ∧ '#' ∉ P.path
  params_clean : '?' ∉ P.params ∧ '#' ∉ P.params ∧ '/' ∉ P.params
  query_clean : '#' ∉ P.query
  netloc_path : P.netloc ≠ [] → (P.path = [] ∧ P.params = []) ∨ P.path.take 1 = ['/']
  path_p1 : P1cond P.path

theorem asciifyOther_id {p : Str} (h : strAscii p = true) : asciifyOther p = p := by
  unfold asciifyOther
  rw [if_pos h]

theorem unparse_parse {P : UrlParts} (hv : SanInv P) :
    urlparseModel (urlunparseModel P) = some P := by
  have hu7 : '?' ∉ joinPP P.path P.params := by
    intro hm
    unfold joinPP at hm
    split at hm
    · rcases List.mem_append.mp hm with h | h
      · exact hv.path_clean.1 h
      · rcases List.mem_cons.mp h with he | h2
        · exact absurd he (by decide)
        · exact hv.params_clean.1 h2
    · exact hv.path_clean.1 hm
  have hu3 : '#' ∉ joinPP P.path P.params := by
    intro hm
    unfold joinPP at hm
    split at hm
    · rcases List.mem_append.mp hm with h | h
      · exact hv.path_clean.2 h
      · rcases List.mem_cons.mp h with he | h2
        · exact absurd he (by decide)
        · exact hv.params_clean.2.1 h2
    · exact hv.path_clean.2 hm
  have hnp2 : P.netloc ≠ [] →
      joinPP P.path P.params = [] ∨ (joinPP P.path P.params).take 1 = ['/'] := by
    intro hne
    rcases hv.netloc_path hne with ⟨hp, hpar⟩ | hp
    · left
      simp [joinPP, hp, hpar]
    · right
      unfold joinPP
      split
      · obtain ⟨t, hpe⟩ : ∃ t, P.path = '/' :: t := by
          cases hpp : P.path with
          | nil => rw [hpp] at hp; exact absurd hp (by decide)
          | cons a t2 =>
            rw [hpp, show (a :: t2).take 1 = [a] from rfl] at hp
            injection hp with h1 _
            exact ⟨t2, by rw [h1]⟩
        rw [hpe]
        rfl
      · exact hp
  have hs := @unsplit_split P.scheme P.netloc (joinPP P.path P.params) P.query
    P.fragment hv.scheme_ok hv.netloc_delim hv.netloc_brk hu7 hu3
    hv.query_clean hnp2
  unfold urlparseModel urlunparseModel
  rw [hs]
  simp only [Option.map_some']
  rw [pp_roundtrip P.path P.params hv.path_p1 hv.params_clean.2.2]

theorem cons_append_shape (s u w : Str) (c : Char) :
    (s ++ c :: u) ++ w = s ++ c :: (u ++ w) := by
  rw [List.append_assoc]
  rfl

theorem unparse_shape (P : UrlParts) (hne : ¬ P.scheme.isEmpty) :
    ∃ r, urlunparseModel P = P.scheme ++ ':' :: r := by
  simp only [urlunparseModel, urlunsplitModel]
  rw [if_pos hne]
  by_cases hqe : P.query.isEmpty
  · rw [if_neg (not_not_intro hqe)]
    by_cases hfe : P.fragment.isEmpty
    · rw [if_neg (not_not_intro hfe)]
      exact ⟨_, rfl⟩
    · rw [if_pos hfe]
      exact ⟨_, cons_append_shape _ _ _ _⟩
  · rw [if_pos hqe]
    by_cases hfe : P.fragment.isEmpty
    · rw [if_neg (not_not_intro hfe)]
      exact ⟨_, cons_append_shape _ _ _ _⟩
    · rw [if_pos hfe]
      exact ⟨_, by rw [cons_append_shape, cons_append_shape]⟩

theorem unparse_untilColon {P : UrlParts}
    (hsch : P.scheme = "http".toList ∨ P.scheme = "https".toList) :
    untilColon (urlunparseModel P) = P.scheme := by
  have hne : ¬ P.scheme.isEmpty := by rcases hsch with he | he <;> rw [he] <;> decide
  obtain ⟨r, hr⟩ := unparse_shape P hne
  rw [hr]
  unfold untilColon
  refine takeWhile_stop _ _ _ ?_ (by decide)
  intro c hc
  refine decide_eq_true ?_
  intro he
  rw [he] at hc
  rcases hsch with hsc | hsc <;> rw [hsc] at hc <;> exact absurd hc (by decide)

theorem addProto_id {s : Str} (h : untilColon s ∈ PROTOCOL) : addProto s = s := by
  unfold addProto
  rw [if_pos h]

theorem fixSlash_id {s : Str} (h : collapsedForm s = false) : fixSlash s = s := by
  unfold collapsedForm at h
  rw [decide_eq_false_iff_not] at h
  unfold fixSlash
  rw [if_neg (fun ha => h (Or.inl ha)), if_neg (fun hb => h (Or.inr hb))]

theorem unparse_no_space {P : UrlParts}
    (hsch : P.scheme = "http".toList ∨ P.scheme = "https".toList)
    (h1 : ' ' ∉ P.netloc) (h2 : ' ' ∉ P.path) (h3 : ' ' ∉ P.params) (h4 : ' ' ∉ P.query)
    (h5 : ' ' ∉ P.fragment) : ' ' ∉ urlunparseModel P := by
  have hs : ' ' ∉ P.scheme := by rcases hsch with he | he <;> rw [he] <;> decide
  have hjp : ' ' ∉ joinPP P.path P.params := by
    intro hm
    unfold joinPP at hm
    split at hm
    · rcases List.mem_append.mp hm with h | h
      · exact h2 h
      · rcases List.mem_cons.mp h with he | h
        · exact absurd he (by decide)
        · exact h3 h
    · exact h2 hm
  intro hm
  simp only [urlunparseModel, urlunsplitModel] at hm
  repeat' split at hm
  all_goals simp +decide [List.mem_append, List.mem_cons, hs, h1, hjp, h4, h5] at hm

theorem addProto_shape (u : Str) :
    (∃ S r, addProto u = S ++ ':' :: r ∧ (S = "http".toList ∨ S = "https".toList)) ∨
      u = "http".toList ∨ u = "https".toList := by
  unfold addProto
  by_cases h : untilColon u ∈ PROTOCOL
  · rw [if_pos h]
    by_cases hc : ':' ∈ u
    · left
      cases hd : u.dropWhile (· ≠ ':') with
      | nil =>
        exfalso
        have hsplit := List.takeWhile_append_dropWhile (p := (· ≠ ':')) (l := u)
        rw [hd, List.append_nil] at hsplit
        have hall : ∀ x ∈ u, x ≠ ':' := by
          intro x hx
          have hmt : x ∈ u.takeWhile (· ≠ ':') := by rw [hsplit]; exact hx
          have hp := List.mem_takeWhile_imp hmt
          exact of_decide_eq_true hp
        exact hall ':' hc rfl
      | cons a t =>
        have ha := dropWhile_head hd
        have ha' : a = ':' := by simpa using ha
        have hsplit := List.takeWhile_append_dropWhile (p := (· ≠ ':')) (l := u)
        rw [hd, ha'] at hsplit
        refine ⟨untilColon u, t, hsplit.symm, ?_⟩
        simpa [PROTOCOL] using h
    · right
      have hid : untilColon u = u :=
        takeWhile_all_sat (fun c hcm => decide_eq_true (fun he => hc (he ▸ hcm)))
      rw [hid] at h
      simpa [PROTOCOL] using h
  · rw [if_neg h]
    left
    exact ⟨"http".toList, '/' :: '/' :: u, rfl, Or.inl rfl⟩

theorem fixSlash_scheme {S : Str} (hS : S = "http".toList ∨ S = "https".toList) (r : Str) :
    ∃ r2, fixSlash (S ++ ':' :: r) = S ++ ':' :: r2 := by
  unfold fixSlash
  rcases hS with rfl | rfl
  · by_cases h1 : ("http".toList ++ ':' :: r).take 6 = "http:/".toList ∧
        ¬ ("http".toList ++ ':' :: r).take 7 = "http://".toList ∧
        7 ≤ ("http".toList ++ ':' :: r).length
    · rw [if_pos h1]
      exact ⟨'/' :: '/' :: ("http".toList ++ ':' :: r).drop 6, rfl⟩
    · have h2 : ¬(("http".toList ++ ':' :: r).take 7 = "https:/".toList ∧
          ¬ ("http".toList ++ ':' :: r).take 8 = "https://".toList ∧
          8 ≤ ("http".toList ++ ':' :: r).length) := by
        rintro ⟨h2, _⟩
        rw [show ("http".toList ++ ':' :: r).take 7 =
          'h' :: 't' :: 't' :: 'p' :: ':' :: r.take 2 from rfl] at h2
        injection h2 with _ h2
        injection h2 with _ h2
        injection h2 with _ h2
        injection h2 with _ h2
        injection h2 with h2 _
        exact absurd h2 (by decide)
      rw [if_neg h1, if_neg h2]
      exact ⟨r, rfl⟩
  · have h1 : ¬(("https".toList ++ ':' :: r).take 6 = "http:/".toList ∧
        ¬ ("https".toList ++ ':' :: r).take 7 = "http://".toList ∧
        7 ≤ ("https".toList ++ ':' :: r).length) := by
      rintro ⟨h1, _⟩
      rw [show ("https".toList ++ ':' :: r).take 6 =
        'h' :: 't' :: 't' :: 'p' :: 's' :: [':'] from rfl] at h1
      injection h1 with _ h1
      injection h1 with _ h1
      injection h1 with _ h1
      injection h1 with _ h1
      injection h1 with h1 _
      exact absurd h1 (by decide)
    rw [if_neg h1]
    by_cases h2 : ("https".toList ++ ':' :: r).take 7 = "https:/".toList ∧
        ¬ ("https".toList ++ ':' :: r).take 8 = "https://".toList ∧
        8 ≤ ("https".toList ++ ':' :: r).length
    · rw [if_pos h2]
      exact ⟨'/' :: '/' :: ("https".toList ++ ':' :: r).drop 7, rfl⟩
    · rw [if_neg h2]
      exact ⟨r, rfl⟩

theorem escSpaces_scheme {S : Str} (hS : S = "http".toList ∨ S = "https".toList) (r : Str) :
    escSpaces (S ++ ':' :: r) = S ++ ':' :: escSpaces r := by
  rw [escSpaces_append]
  rcases hS with rfl | rfl <;> rfl

theorem netBad_of {c : Char} (hd : notDelim c = true) (hs : c ≠ ' ') : netBad c = false := by
  cases hnb : netBad c
  · rfl
  · exfalso
    simp [netBad] at hnb
    simp [notDelim] at hd
    rcases hnb with rfl | rfl | rfl | rfl
    · exact hd.1 rfl
    · exact hd.2.1 rfl
    · exact hd.2.2 rfl
    · exact hs rfl

theorem sanitize_unfold {idna : Str → Option Str} {u s : Str}
    (h : sanitize_url_str idna u = some s) :
    ∃ P nl, urlparseModel (escSpaces (fixSlash (addProto u))) = some P ∧
      asciifyNetloc idna P.netloc = some nl ∧
      s = urlunparseModel ⟨asciifyOther P.scheme, nl, asciifyOther P.path,
        asciifyOther P.params, asciifyOther P.query, asciifyOther P.fragment⟩ := by
  simp only [sanitize_url_str] at h
  cases hp : urlparseModel (escSpaces (fixSlash (addProto u))) with
  | none => rw [hp] at h; exact Option.noConfusion h
  | some P =>
    rw [hp] at h
    have h2 : (asciifyNetloc idna P.netloc).map (fun netloc =>
        urlunparseModel ⟨asciifyOther P.scheme, netloc, asciifyOther P.path,
          asciifyOther P.params, asciifyOther P.query, asciifyOther P.fragment⟩) =
        some s := h
    rcases Option.map_eq_some'.mp h2 with ⟨nl, hnl, hs⟩
    exact ⟨P, nl, rfl, hnl, hs.symm⟩

set_option maxHeartbeats 1600000 in
theorem sanitize_inv {u s : Str} (h : sanitize_url_str idnaModel u = some s)
    (hcolon : ∃ S r, addProto u = S ++ ':' :: r ∧
      (S = "http".toList ∨ S = "https".toList)) :
    ∃ Q, SanInv Q ∧ s = urlunparseModel Q := by
  obtain ⟨S, r, hshape, hS⟩ := hcolon
  obtain ⟨P, nl, hp, hnl, hs⟩ := sanitize_unfold h
  obtain ⟨r2, hfix⟩ := fixSlash_scheme hS r
  have hu3 : escSpaces (fixSlash (addProto u)) = S ++ ':' :: escSpaces r2 := by
    rw [hshape, hfix, escSpaces_scheme hS]
  rw [hu3] at hp
  have hSfree : ':' ∉ S := by rcases hS with rfl | rfl <;> decide
  have hSne : S ≠ [] := by rcases hS with rfl | rfl <;> decide
  have hSall : S.all schemeChar = true := by rcases hS with rfl | rfl <;> decide
  have hsch := parse_scheme hSfree hSne hSall hp
  have hPs : P.scheme = S := by
    rw [hsch]
    rcases hS with rfl | rfl <;> decide
  obtain ⟨Fnl, Fbrk, Fp, Fpar, Fslash, Fq, Ff, Fnp, Fp1⟩ := urlparseModel_facts hp
  have hnos : ' ' ∉ S ++ ':' :: escSpaces r2 := by
    intro hm
    rcases List.mem_append.mp hm with hm | hm
    · rcases hS with rfl | rfl <;> revert hm <;> decide
    · rcases List.mem_cons.mp hm with he | hm
      · exact absurd he (by decide)
      · exact escSpaces_no_space _ hm
  have hnbad : ∀ c ∈ P.netloc, netBad c = false := by
    intro c hc
    exact netBad_of (Fnl c hc).2 (fun he => hnos (he ▸ (Fnl c hc).1))
  have hnet : (∀ c ∈ nl, notDelim c = true) ∧ ('[' ∈ nl ↔ ']' ∈ nl) ∧
      strAscii nl = true ∧ ' ' ∉ nl := by
    unfold asciifyNetloc at hnl
    split at hnl
    · rename_i ha
      injection hnl with hnl
      subst hnl
      exact ⟨fun c hc => (Fnl c hc).2, Fbrk, ha,
        fun hm => hnos (Fnl ' ' hm).1⟩
    · cases hio : idnaModel P.netloc with
      | none => rw [hio] at hnl; exact Option.noConfusion hnl
      | some o =>
        rw [hio] at hnl
        have hnl2 : (if strAscii o then some o else none) = some nl := hnl
        split at hnl2
        · rename_i hoa
          injection hnl2 with hnl2
          subst hnl2
          have hsafe := idnaModel_safe hio hnbad
          have hbl := idnaModel_brk hio (Or.inl rfl)
          have hbr := idnaModel_brk hio (Or.inr rfl)
          refine ⟨?_, ?_, hoa, ?_⟩
          · intro c hc
            have hnb := (hsafe c hc).1
            simp [netBad] at hnb
            simp [notDelim]
            tauto
          · rw [hbl, hbr]
            exact Fbrk
          · intro hm
            have hnb := (hsafe ' ' hm).1
            simp [netBad] at hnb
        · exact Option.noConfusion hnl2
  have hao_s : asciifyOther P.scheme = P.scheme := by
    refine asciifyOther_id ?_
    rw [hPs]
    rcases hS with rfl | rfl <;> decide
  refine ⟨⟨asciifyOther P.scheme, nl, asciifyOther P.path, asciifyOther P.params,
    asciifyOther P.query, asciifyOther P.fragment⟩, ?_, hs⟩
  refine ⟨?_, ?_, ?_, ?_, ?_, ?_, ?_, ?_, ?_, ?_, ?_, ?_, ?_, ?_⟩
  · show asciifyOther P.scheme = "http".toList ∨ asciifyOther P.scheme = "https".toList
    rw [hao_s, hPs]
    exact hS
  · show strAscii nl = true
    exact hnet.2.2.1
  · show strAscii (asciifyOther P.path) = true
    exact asciifyOther_ascii P.path
  · show strAscii (asciifyOther P.params) = true
    exact asciifyOther_ascii P.params
  · show strAscii (asciifyOther P.query) = true
    exact asciifyOther_ascii P.query
  · show strAscii (asciifyOther P.fragment) = true
    exact asciifyOther_ascii P.fragment
  · show ' ' ∉ nl ∧ ' ' ∉ asciifyOther P.path ∧ ' ' ∉ asciifyOther P.params ∧
      ' ' ∉ asciifyOther P.query ∧ ' ' ∉ asciifyOther P.fragment
    refine ⟨hnet.2.2.2, ?_, ?_, ?_, ?_⟩
    · exact asciifyOther_no (Or.inr (Or.inr (Or.inr (Or.inl rfl))))
        (fun hm => hnos (Fp ' ' hm).1)
    · exact asciifyOther_no (Or.inr (Or.inr (Or.inr (Or.inl rfl))))
        (fun hm => hnos (Fpar ' ' hm).1)
    · exact asciifyOther_no (Or.inr (Or.inr (Or.inr (Or.inl rfl))))
        (fun hm => hnos (Fq ' ' hm).1)
    · exact asciifyOther_no (Or.inr (Or.inr (Or.inr (Or.inl rfl))))
        (fun hm => hnos (Ff ' ' hm))
  · show ∀ c ∈ nl, notDelim c = true
    exact hnet.1
  · show '[' ∈ nl ↔ ']' ∈ nl
    exact hnet.2.1
  · show '?' ∉ asciifyOther P.path ∧ '#' ∉ asciifyOther P.path
    constructor
    · exact asciifyOther_no (Or.inl rfl) (fun hm => (Fp '?' hm).2.2 rfl)
    · exact asciifyOther_no (Or.inr (Or.inl rfl)) (fun hm => (Fp '#' hm).2.1 rfl)
  · show '?' ∉ asciifyOther P.params ∧ '#' ∉ asciifyOther P.params ∧
      '/' ∉ asciifyOther P.params
    refine ⟨?_, ?_, ?_⟩
    · exact asciifyOther_no (Or.inl rfl) (fun hm => (Fpar '?' hm).2.2 rfl)
    · exact asciifyOther_no (Or.inr (Or.inl rfl)) (fun hm => (Fpar '#' hm).2.1 rfl)
    · exact asciifyOther_no (Or.inr (Or.inr (Or.inr (Or.inr rfl)))) Fslash
  · show '#' ∉ asciifyOther P.query
    exact asciifyOther_no (Or.inr (Or.inl rfl)) (fun hm => (Fq '#' hm).2 rfl)
  · show nl ≠ [] → (asciifyOther P.path = [] ∧ asciifyOther P.params = []) ∨
      (asciifyOther P.path).take 1 = ['/']
    intro hne
    have hPn : P.netloc ≠ [] := by
      intro he
      apply hne
      rw [he] at hnl
      have h3 : some ([] : Str) = some nl := hnl
      injection h3 with h3
      exact h3.symm
    rcases Fnp hPn with ⟨hp1, hp2⟩ | hp1
    · left
      constructor
      · rw [hp1]; exact asciifyOther_nil
      · rw [hp2]; exact asciifyOther_nil
    · right
      exact asciifyOther_take1 hp1
  · show P1cond (asciifyOther P.path)
    exact asciifyOther_P1 Fp1

/-- C7 (amended): sanitize_url is idempotent on every successful output except
the urlunparse-collapsed shapes http:/x and https:/x (the counterexample), whose
second pass rewrites them; whenever sanitize_url_str u = some s and s is not of
that collapsed shape, a second sanitize pass returns s unchanged. -/
theorem C7_idempotent_unless_collapsed (u s : Str)
    (h : sanitize_url_str idnaModel u = some s) (hc : collapsedForm s = false) :
    sanitize_url_str idnaModel s = some s := by
  rcases addProto_shape u with hsh | hu
  · obtain ⟨Q, hv, rfl⟩ := sanitize_inv h hsh
    have hsp : ' ' ∉ urlunparseModel Q :=
      unparse_no_space hv.scheme_ok hv.no_space.1 hv.no_space.2.1 hv.no_space.2.2.1
        hv.no_space.2.2.2.1 hv.no_space.2.2.2.2
    have hap : addProto (urlunparseModel Q) = urlunparseModel Q := by
      apply addProto_id
      rw [unparse_untilColon hv.scheme_ok]
      rcases hv.scheme_ok with he | he <;> rw [he] <;> decide
    have hsa : strAscii Q.scheme = true := by
      rcases hv.scheme_ok with he | he <;> rw [he] <;> decide
    have h1 : asciifyNetloc idnaModel Q.netloc = some Q.netloc := by
      unfold asciifyNetloc
      rw [if_pos hv.netloc_ascii]
    simp only [sanitize_url_str]
    rw [hap, fixSlash_id hc, escSpaces_id _ hsp]
    simp only [unparse_parse hv]
    rw [h1]
    simp only [Option.map_some']
    rw [asciifyOther_id hsa, asciifyOther_id hv.path_ascii, asciifyOther_id hv.params_ascii,
      asciifyOther_id hv.query_ascii, asciifyOther_id hv.frag_ascii]
  · rcases hu with rfl | rfl
    · have h0 : sanitize_url_str idnaModel "http".toList = some "http".toList := by decide
      rw [h0] at h
      injection h with h
      subst h
      exact h0
    · have h0 : sanitize_url_str idnaModel "https".toList = some "https".toList := by decide
      rw [h0] at h
      injection h with h
      subst h
      exact h0

theorem C7_witness :
    sanitize_url_str idnaModel "http://example.com/a b".toList =
      some "http://example.com/a%20b".toList ∧
    collapsedForm "http://example.com/a%20b".toList = false ∧
    sanitize_url_str idnaModel "http://example.com/a%20b".toList =
      some "http://example.com/a%20b".toList :=
  ⟨by decide, by decide,
    C7_idempotent_unless_collapsed "http://example.com/a b".toList
      "http://example.com/a%20b".toList (by decide) (by decide)⟩

/-- C8 (amended): sanitize_url is not total.  Bytes that do not decode as
UTF-8 always propagate the url.decode() failure, and on the faithfully
modelled domain success is guaranteed: every string whose repaired url parses
with an ASCII netloc is sanitized successfully, because is_ascii
short-circuits both the 3.8-era NFKC netloc check and the idna codec there and
percent-quoting never raises.  Outside that domain the model keeps the failure
set conservative: the unmodelled NFKC and nameprep errors can only remove
further non-ASCII-netloc inputs from the returning set. -/
theorem C8_totality_bounds :
    (∀ bs : List Nat, utf8Decode bs = none → sanitize_url idnaModel (Sum.inl bs) = none) ∧
    (∀ (u : Str) (P : UrlParts),
      urlparseModel (escSpaces (fixSlash (addProto u))) = some P →
      strAscii P.netloc = true → (sanitize_url_str idnaModel u).isSome = true) := by
  constructor
  · intro bs hbs
    show (utf8Decode bs).bind (sanitize_url_str idnaModel) = none
    rw [hbs]
    rfl
  · intro u P hp ha
    have hnet : asciifyNetloc idnaModel P.netloc = some P.netloc := by
      unfold asciifyNetloc
      rw [if_pos ha]
    simp only [sanitize_url_str]
    rw [hp]
    show ((asciifyNetloc idnaModel P.netloc).map _).isSome = true
    rw [hnet]
    rfl

theorem C8_witness :
    sanitize_url idnaModel (Sum.inl [255]) = none ∧
      (sanitize_url_str idnaModel "http://a".toList).isSome = true :=
  ⟨C8_totality_bounds.1 [255] (by decide),
    C8_totality_bounds.2 "http://a".toList
      ⟨"http".toList, "a".toList, [], [], [], []⟩ (by decide) (by decide)⟩
